import Mathlib

/-!
Shallow embedding of the Connex layout-generation and solvability engine.

Conventions used throughout:
* JS numbers holding grid coordinates are modelled as `ℤ` (moves may go
  negative before the bounds check); grid dimensions are `ℕ`.
* JS `Set`/`Map` string-keyed collections of cells and walls are modelled as
  `Finset` over structural values.
* `Math.random()` is modelled as a stream `ℕ → ℚ` of draws in `[0,1)`.
* Wall-clock deadlines are modelled as fuel; running out of fuel returns the
  same conservative "not found" the deadline produces.
* A thrown JS `TypeError` (property access on `undefined`) is modelled as
  `Option.none` / `Except.error`.
-/

namespace Connex

/-- A grid cell, JS object `{x, y}`. -/
abbrev Cell := ℤ × ℤ

/-- Wall direction component of keys "x,y|right" / "x,y|down". -/
inductive WallDir where
  | right
  | down
deriving DecidableEq

/-- A wall entry "x,y|dir": the edge between a cell and its right/down neighbor. -/
abbrev Wall := Cell × WallDir

/-- The stream of `Math.random()` results. -/
def Rng := ℕ → ℚ

/-- Pop the next random draw. -/
def Rng.next (r : Rng) : ℚ × Rng := (r 0, fun n => r (n + 1))

/-- `Math.floor(q)` for a nonnegative draw, clamped at 0 like `toNat`. -/
def jsFloorNat (q : ℚ) : ℕ := q.floor.toNat

/-- The in-bounds predicate `0 ≤ x < cols ∧ 0 ≤ y < rows`. -/
def inGridP (cols rows : ℕ) (c : Cell) : Prop :=
  0 ≤ c.1 ∧ c.1 < cols ∧ 0 ≤ c.2 ∧ c.2 < rows

instance (cols rows : ℕ) (c : Cell) : Decidable (inGridP cols rows c) := by
  unfold inGridP; infer_instance

/-- The finite set of all cells of a `cols × rows` grid. -/
def gridCells (cols rows : ℕ) : Finset Cell :=
  (Finset.range cols ×ˢ Finset.range rows).image (fun p => ((p.1 : ℤ), (p.2 : ℤ)))

theorem mem_gridCells {cols rows : ℕ} {c : Cell} :
    c ∈ gridCells cols rows ↔ inGridP cols rows c := by
  obtain ⟨x, y⟩ := c
  simp only [gridCells, Finset.mem_image, Finset.mem_product, Finset.mem_range, inGridP]
  constructor
  · rintro ⟨⟨a, b⟩, ⟨ha, hb⟩, h⟩
    injection h with h1 h2
    subst h1; subst h2
    exact ⟨Int.ofNat_nonneg a, by exact_mod_cast ha, Int.ofNat_nonneg b, by exact_mod_cast hb⟩
  · rintro ⟨hx0, hx1, hy0, hy1⟩
    refine ⟨(x.toNat, y.toNat), ⟨?_, ?_⟩, ?_⟩ <;> simp <;> omega

theorem card_gridCells (cols rows : ℕ) :
    (gridCells cols rows).card = cols * rows := by
  rw [gridCells, Finset.card_image_of_injective, Finset.card_product,
    Finset.card_range, Finset.card_range]
  intro a b h
  simpa [Prod.ext_iff] using h


/-- An anchor `{x, y, n}` with checkpoint number `n ∈ 1..K`. -/
structure Anchor where
  x : ℤ
  y : ℤ
  n : ℕ
deriving DecidableEq

/-- `getCellNumber(x, y)`: lookup in `anchorsMap`.  The JS map is built by
successive `Map.set` calls over `anchors`, so for a duplicated cell the last
inserted anchor wins; hence the lookup scans the reversed list. -/
def getCellNumber (anchors : List Anchor) (x y : ℤ) : Option ℕ :=
  (anchors.reverse.find? (fun a => a.x == x && a.y == y)).map Anchor.n

/-- `blockedByWall(x0, y0, nx, ny)`. -/
def blockedByWall (walls : Finset Wall) (x0 y0 nx ny : ℤ) : Bool :=
  let dx := nx - x0
  let dy := ny - y0
  if dx = 1 ∧ dy = 0 then decide (((x0, y0), WallDir.right) ∈ walls)
  else if dx = -1 ∧ dy = 0 then decide (((nx, ny), WallDir.right) ∈ walls)
  else if dx = 0 ∧ dy = 1 then decide (((x0, y0), WallDir.down) ∈ walls)
  else if dx = 0 ∧ dy = -1 then decide (((nx, ny), WallDir.down) ∈ walls)
  else false

/-- `numbersFirstOrder()`: first-visit order of checkpoint numbers along the
trail (the JS `seen` set always holds exactly the numbers in `order`). -/
def numbersFirstOrder (anchors : List Anchor) (trail : List Cell) : List ℕ :=
  trail.foldl (fun order p =>
    match getCellNumber anchors p.1 p.2 with
    | some n => if n ∈ order then order else order ++ [n]
    | none => order) []

/-- A movement direction fed to `move`. -/
inductive Dir where
  | up
  | right
  | down
  | left
deriving DecidableEq

/-- The target cell `(nx, ny)` computed at the top of `move`. -/
def targetCell (p : Cell) (d : Dir) : Cell :=
  match d with
  | .up => (p.1, p.2 - 1)
  | .right => (p.1 + 1, p.2)
  | .down => (p.1, p.2 + 1)
  | .left => (p.1 - 1, p.2)

/-- The mutable game globals touched by `move`. -/
structure GameState where
  cols : ℕ
  rows : ℕ
  anchors : List Anchor
  walls : Finset Wall
  player : Cell
  trail : List Cell
  visitedCells : Finset Cell
  gameOver : Bool
  hasStarted : Bool
deriving DecidableEq

/-- `isImmediateBack(nx, ny)`: the target equals the second-to-last trail cell. -/
def isImmediateBack (trail : List Cell) (nx ny : ℤ) : Bool :=
  if trail.length < 2 then false
  else trail.get? (trail.length - 2) == some (nx, ny)

/-- `move(dir)` of the main source file: free movement, backdraw only one
step, block other revisits, then the win check
`trail.length === COLS*ROWS && numbersFirstOrder() = [1..K] && atGoal`.
`none` models the `TypeError` thrown when no anchor bears number `K`. -/
def move (s : GameState) (d : Dir) : Option GameState :=
  if s.gameOver then some s
  else
    let x0 := s.player.1
    let y0 := s.player.2
    let t := targetCell s.player d
    if t.1 < 0 ∨ t.2 < 0 ∨ (s.cols : ℤ) ≤ t.1 ∨ (s.rows : ℤ) ≤ t.2 then some s
    else if blockedByWall s.walls x0 y0 t.1 t.2 then some s
    else if t ∈ s.trail then
      if isImmediateBack s.trail t.1 t.2 then
        some { s with trail := s.trail.dropLast, player := t }
      else some s
    else
      let hasStarted' := if ¬s.hasStarted ∧ (t.1 ≠ x0 ∨ t.2 ≠ y0) then true else s.hasStarted
      let trail' := s.trail ++ [t]
      let visited' := insert t s.visitedCells
      let Kn := s.anchors.length
      let walkedAll := trail'.length == s.cols * s.rows
      let order := numbersFirstOrder s.anchors trail'
      let must := (List.range Kn).map (· + 1)
      let visitedInOrder := order == must
      match s.anchors.find? (fun a => a.n == Kn) with
      | none => none
      | some finalA =>
        let atGoal := t.1 == finalA.x && t.2 == finalA.y
        let win := walkedAll && visitedInOrder && atGoal
        some { s with
                player := t,
                trail := trail',
                visitedCells := visited',
                hasStarted := hasStarted',
                gameOver := win }

/-- The layout globals read by `isLayoutSolvable`. -/
structure Layout where
  cols : ℕ
  rows : ℕ
  anchors : List Anchor
  walls : Finset Wall
deriving DecidableEq

/-- The direction table `[[0,-1],[1,0],[0,1],[-1,0]]`. -/
def dirs : List (ℤ × ℤ) := [(0, -1), (1, 0), (0, 1), (-1, 0)]

/-- The queue-driven BFS loop of `canReachAllFrom`, counting newly seen
cells.  The loop pops one queue entry per round; since every pushed cell
enters `seen` exactly once and stays there, `total + 2` rounds always drain
the queue, so the fuel is only a termination device, not a budget. -/
def bfsCount (L : Layout) (visited : Finset Cell) :
    ℕ → List Cell → Finset Cell → ℕ → ℕ
  | 0, _, _, count => count
  | _ + 1, [], _, count => count
  | fuel + 1, p :: q, seen, count =>
      let step := dirs.foldl (fun (acc : List Cell × Finset Cell × ℕ) d =>
        let nx := p.1 + d.1
        let ny := p.2 + d.2
        if nx < 0 ∨ ny < 0 ∨ (L.cols : ℤ) ≤ nx ∨ (L.rows : ℤ) ≤ ny then acc
        else if blockedByWall L.walls p.1 p.2 nx ny then acc
        else if (nx, ny) ∈ visited ∨ (nx, ny) ∈ acc.2.1 then acc
        else (acc.1 ++ [(nx, ny)], insert (nx, ny) acc.2.1, acc.2.2 + 1))
        (q, seen, count)
      bfsCount L visited fuel step.1 step.2.1 step.2.2

/-- `canReachAllFrom(sx, sy, visited)`: BFS over unvisited cells must reach
at least as many cells as remain to be covered.  JS computes
`count + 1 >= total - visited.size` on possibly-negative numbers; with `ℕ`
truncation the comparison has the same outcome. -/
def canReachAllFrom (L : Layout) (sx sy : ℤ) (visited : Finset Cell) : Bool :=
  let total := L.cols * L.rows
  let count := bfsCount L visited (total + 2) [(sx, sy)] {(sx, sy)} 0
  decide (total - visited.card ≤ count + 1)

/-- The in-bounds, unblocked, unvisited neighbor list built inside `dfs`. -/
def dfsNeighbors (L : Layout) (x y : ℤ) (visitedSet : Finset Cell) : List Cell :=
  dirs.filterMap (fun d =>
    let nx := x + d.1
    let ny := y + d.2
    if nx < 0 ∨ ny < 0 ∨ (L.cols : ℤ) ≤ nx ∨ (L.rows : ℤ) ≤ ny then none
    else if blockedByWall L.walls x y nx ny then none
    else if (nx, ny) ∈ visitedSet then none
    else some (nx, ny))

/-- The `neigh.sort(...)` prioritisation: neighbors whose cell number equals
`nextRequired` move to the front, relative order otherwise kept (the stable
outcome of the JS comparator; note `null === null`, so numberless cells
"match" when `nextRequired` is exhausted). -/
def prioritizeNeighbors (L : Layout) (nextRequired : Option ℕ) (neigh : List Cell) :
    List Cell :=
  neigh.filter (fun nb => getCellNumber L.anchors nb.1 nb.2 == nextRequired) ++
    neigh.filter (fun nb => !(getCellNumber L.anchors nb.1 nb.2 == nextRequired))

/-- The recursive backtracking search of `isLayoutSolvable`.  The wall-clock
deadline is modelled as fuel: exhausted fuel aborts with the same "not
found" answer the deadline produces. -/
def dfs (L : Layout) (gx gy : ℤ) :
    ℕ → ℤ → ℤ → Finset Cell → Option ℕ → Bool
  | 0, _, _, _, _ => false
  | fuel + 1, x, y, visitedSet, nextRequired =>
    if !canReachAllFrom L x y visitedSet then false
    else if visitedSet.card = L.cols * L.rows then
      decide (x = gx ∧ y = gy ∧ nextRequired = none)
    else
      (prioritizeNeighbors L nextRequired (dfsNeighbors L x y visitedSet)).any (fun nb =>
        let num := getCellNumber L.anchors nb.1 nb.2
        if num.isSome ∧ num ≠ nextRequired then false
        else
          let newNext :=
            if num.isSome ∧ num = nextRequired then
              if nextRequired = some L.anchors.length then none
              else nextRequired.map (· + 1)
            else nextRequired
          dfs L gx gy fuel nb.1 nb.2 (insert nb visitedSet) newNext)

/-- `isLayoutSolvable(startX, startY, goalX, goalY, timeBudgetMs)`. -/
def isLayoutSolvable (L : Layout) (startX startY goalX goalY : ℤ) (fuel : ℕ) : Bool :=
  let Knum := L.anchors.length
  let startNum := getCellNumber L.anchors startX startY
  if startNum.isSome ∧ startNum ≠ some 1 then false
  else
    let initialNext : Option ℕ :=
      if startNum = some 1 then (if Knum = 1 then none else some 2) else some 1
    dfs L goalX goalY fuel startX startY {(startX, startY)} initialNext

/-- One legal step per the solvability claim: the two cells are 4-adjacent
and the edge between them is not walled. -/
def stepOk (L : Layout) (a b : Cell) : Prop :=
  (b.1 - a.1).natAbs + (b.2 - a.2).natAbs = 1 ∧
    blockedByWall L.walls a.1 a.2 b.1 b.2 = false

/-- Consume checkpoint numbers along a trail: a numbered cell may be entered
only when its number is the required one (numbers ascend `1..K`, then the
requirement becomes `none`); a `none` result marks a violation. -/
def consumeNumbers (L : Layout) : Option ℕ → List Cell → Option (Option ℕ)
  | next, [] => some next
  | next, c :: cs =>
    match getCellNumber L.anchors c.1 c.2 with
    | none => consumeNumbers L next cs
    | some m =>
      if next = some m then
        consumeNumbers L (if m = L.anchors.length then none else some (m + 1)) cs
      else none

/-- Modelled from the claim's words (the refinement target of verifier
soundness): a concrete trail that starts at `start`, moves only between
in-bounds 4-adjacent unblocked cells, covers every grid cell exactly once,
consumes checkpoints in ascending order, and ends on `goal` with all
checkpoints consumed. -/
def ValidTrail (L : Layout) (start goal : Cell) (trail : List Cell) : Prop :=
  trail.head? = some start ∧
  List.Chain' (stepOk L) trail ∧
  (∀ c ∈ trail, inGridP L.cols L.rows c) ∧
  trail.Nodup ∧
  (∀ c, inGridP L.cols L.rows c → c ∈ trail) ∧
  consumeNumbers L (some 1) trail = some none ∧
  trail.getLast? = some goal

theorem mem_prioritizeNeighbors {L : Layout} {next : Option ℕ} {neigh : List Cell}
    {nb : Cell} (h : nb ∈ prioritizeNeighbors L next neigh) : nb ∈ neigh := by
  simp only [prioritizeNeighbors, List.mem_append, List.mem_filter] at h
  rcases h with ⟨h, _⟩ | ⟨h, _⟩ <;> exact h

theorem mem_dfsNeighbors {L : Layout} {x y : ℤ} {visited : Finset Cell} {nb : Cell}
    (h : nb ∈ dfsNeighbors L x y visited) :
    stepOk L (x, y) nb ∧ nb ∈ gridCells L.cols L.rows ∧ nb ∉ visited := by
  simp only [dfsNeighbors, List.mem_filterMap, dirs, List.mem_cons,
    List.not_mem_nil, or_false] at h
  obtain ⟨d, hd, h⟩ := h
  rcases hd with rfl | rfl | rfl | rfl <;>
  · split_ifs at h with h1 h2 h3
    injection h with h'
    subst h'
    push_neg at h1
    refine ⟨⟨by omega, by simpa [stepOk] using Bool.not_eq_true _ |>.mp h2⟩,
      mem_gridCells.mpr ⟨by omega, by omega, by omega, by omega⟩, h3⟩

theorem dfs_sound (L : Layout) (gx gy : ℤ) :
    ∀ (fuel : ℕ) (x y : ℤ) (visited : Finset Cell) (next : Option ℕ),
      (x, y) ∈ visited →
      visited ⊆ gridCells L.cols L.rows →
      dfs L gx gy fuel x y visited next = true →
      ∃ rest : List Cell,
        (∀ c ∈ rest, c ∈ gridCells L.cols L.rows ∧ c ∉ visited) ∧
        rest.Nodup ∧
        List.Chain' (stepOk L) ((x, y) :: rest) ∧
        visited ∪ rest.toFinset = gridCells L.cols L.rows ∧
        consumeNumbers L next rest = some none ∧
        ((x, y) :: rest).getLast? = some (gx, gy) := by
  intro fuel
  induction fuel with
  | zero =>
    intro x y visited next _ _ h
    simp [dfs] at h
  | succ fuel ih =>
    intro x y visited next hxy hsub h
    simp only [dfs] at h
    by_cases hreach : canReachAllFrom L x y visited = true
    swap
    · rw [if_pos (by simpa using hreach)] at h
      exact absurd h (by simp)
    rw [if_neg (by simpa using hreach)] at h
    by_cases hcard : visited.card = L.cols * L.rows
    · -- base case: full coverage reached
      rw [if_pos hcard] at h
      obtain ⟨hx, hy, hnext⟩ := of_decide_eq_true h
      subst hx; subst hy; subst hnext
      refine ⟨[], by simp, by simp, by simp, ?_, rfl, rfl⟩
      have hge : (gridCells L.cols L.rows).card ≤ visited.card := by
        rw [card_gridCells, hcard]
      simpa using Finset.eq_of_subset_of_card_le hsub hge
    · -- inductive case: some neighbor accepted
      rw [if_neg hcard, List.any_eq_true] at h
      obtain ⟨nb, hmem, hbody⟩ := h
      obtain ⟨hstep, hgrid, hnbv⟩ := mem_dfsNeighbors (mem_prioritizeNeighbors hmem)
      by_cases hguard : (getCellNumber L.anchors nb.1 nb.2).isSome = true ∧
          getCellNumber L.anchors nb.1 nb.2 ≠ next
      · rw [if_pos hguard] at hbody
        exact absurd hbody (by simp)
      rw [if_neg hguard] at hbody
      have hxy2 : (nb.1, nb.2) ∈ insert nb visited := by simp
      have hsub2 : insert nb visited ⊆ gridCells L.cols L.rows :=
        Finset.insert_subset hgrid hsub
      obtain ⟨rest, hrmem, hrnodup, hrchain, hrunion, hrcons, hrlast⟩ :=
        ih nb.1 nb.2 (insert nb visited) _ hxy2 hsub2 hbody
      rw [Prod.mk.eta] at hrchain hrlast
      refine ⟨nb :: rest, ?_, ?_, ?_, ?_, ?_, ?_⟩
      · intro c hc
        rcases List.mem_cons.mp hc with rfl | hc
        · exact ⟨hgrid, hnbv⟩
        · exact ⟨(hrmem c hc).1, fun hv => (hrmem c hc).2 (Finset.mem_insert_of_mem hv)⟩
      · exact List.nodup_cons.mpr
          ⟨fun hc => (hrmem nb hc).2 (Finset.mem_insert_self nb visited), hrnodup⟩
      · exact List.chain'_cons.mpr ⟨hstep, hrchain⟩
      · rw [List.toFinset_cons, Finset.union_insert, ← Finset.insert_union]
        exact hrunion
      · rcases hnum : getCellNumber L.anchors nb.1 nb.2 with _ | m
        · rw [hnum] at hrcons
          rw [if_neg (by simp)] at hrcons
          simpa [consumeNumbers, hnum] using hrcons
        · have hnext : next = some m := by
            rcases Decidable.not_and_iff_or_not.mp hguard with h' | h'
            · exact absurd (by simp [hnum]) h'
            · rw [hnum] at h'
              exact (Decidable.not_not.mp h').symm
          rw [hnum, hnext] at hrcons
          rw [if_pos (by simp)] at hrcons
          simp only [Option.some.injEq, Option.map_some] at hrcons
          simp only [consumeNumbers, hnum, hnext, if_pos rfl]
          exact hrcons
      · rw [List.getLast?_cons_cons]
        exact hrlast

/-- C2: verifier soundness.  If `isLayoutSolvable` answers true for an
in-bounds start cell, a concrete winning trail exists: it starts at the
start cell, moves only between in-bounds 4-adjacent unblocked cells, visits
every grid cell exactly once, consumes the checkpoint numbers in ascending
order `1..K`, and ends on the goal with all checkpoints consumed. -/
theorem isLayoutSolvable_sound (L : Layout) (sx sy gx gy : ℤ) (fuel : ℕ)
    (hs : inGridP L.cols L.rows (sx, sy))
    (h : isLayoutSolvable L sx sy gx gy fuel = true) :
    ∃ trail : List Cell, ValidTrail L (sx, sy) (gx, gy) trail := by
  simp only [isLayoutSolvable] at h
  by_cases hbad : (getCellNumber L.anchors sx sy).isSome = true ∧
      getCellNumber L.anchors sx sy ≠ some 1
  · rw [if_pos hbad] at h
    exact absurd h (by simp)
  rw [if_neg hbad] at h
  obtain ⟨rest, hrmem, hrnodup, hrchain, hrunion, hrcons, hrlast⟩ :=
    dfs_sound L gx gy fuel sx sy {(sx, sy)} _ (by simp)
      (by simpa using mem_gridCells.mpr hs) h
  refine ⟨(sx, sy) :: rest, rfl, hrchain, ?_, ?_, ?_, ?_, hrlast⟩
  · intro c hc
    rcases List.mem_cons.mp hc with rfl | hc
    · exact hs
    · exact mem_gridCells.mp (hrmem c hc).1
  · exact List.nodup_cons.mpr
      ⟨fun hc => (hrmem _ hc).2 (Finset.mem_singleton_self _), hrnodup⟩
  · intro c hcg
    have hcu : c ∈ ({(sx, sy)} : Finset Cell) ∪ rest.toFinset := by
      rw [hrunion]; exact mem_gridCells.mpr hcg
    rcases Finset.mem_union.mp hcu with hc | hc
    · simp only [Finset.mem_singleton] at hc
      simp [hc]
    · exact List.mem_cons_of_mem _ (List.mem_toFinset.mp hc)
  · rcases hnum : getCellNumber L.anchors sx sy with _ | m
    · rw [hnum] at hrcons
      rw [if_neg (by simp)] at hrcons
      simpa [consumeNumbers, hnum] using hrcons
    · have hm1 : m = 1 := by
        rcases Decidable.not_and_iff_or_not.mp hbad with h' | h'
        · exact absurd (by simp [hnum]) h'
        · rw [hnum] at h'
          have := Decidable.not_not.mp h'
          simpa using this
      subst hm1
      rw [hnum] at hrcons
      rw [if_pos rfl] at hrcons
      simp only [consumeNumbers, hnum, if_pos rfl]
      have hiff : (if (1 : ℕ) = L.anchors.length then (none : Option ℕ) else some 2) =
          (if L.anchors.length = 1 then none else some 2) := by
        by_cases hK : L.anchors.length = 1 <;> simp [hK, eq_comm]
      rw [hiff]
      exact hrcons

theorem coverage_of_nodup_length {cols rows : ℕ} {l : List Cell} (hnd : l.Nodup)
    (hg : ∀ c ∈ l, inGridP cols rows c) (hlen : l.length = cols * rows) :
    ∀ c, inGridP cols rows c → l.count c = 1 := by
  have hsub : l.toFinset ⊆ gridCells cols rows := by
    intro c hc
    exact mem_gridCells.mpr (hg c (List.mem_toFinset.mp hc))
  have hcardle : (gridCells cols rows).card ≤ l.toFinset.card := by
    rw [card_gridCells, List.toFinset_card_of_nodup hnd, hlen]
  have heq := Finset.eq_of_subset_of_card_le hsub hcardle
  intro c hc
  have hmem : c ∈ l := by
    rw [← List.mem_toFinset, heq]
    exact mem_gridCells.mpr hc
  have hbridge : ∀ (l' : List Cell),
      @List.count Cell instBEqProd c l' = @List.count Cell instBEqOfDecidableEq c l' := by
    intro l'
    induction l' with
    | nil => rfl
    | cons a t iht =>
        rw [@List.count_cons _ instBEqProd c a t,
          @List.count_cons _ instBEqOfDecidableEq c a t, iht]
        congr 1
        by_cases h : a = c
        · rw [if_pos (beq_iff_eq.mpr h),
            if_pos (show (@BEq.beq _ instBEqOfDecidableEq a c) = true from decide_eq_true h)]
        · rw [if_neg (fun hc => h (beq_iff_eq.mp hc)),
            if_neg (show ¬(@BEq.beq _ instBEqOfDecidableEq a c) = true from
              fun hc => h (of_decide_eq_true hc))]
  rw [hbridge]
  exact List.count_eq_one_of_mem hnd hmem

/-- C1: after a forward move (in-bounds, unblocked, not-yet-trailed target)
in a running well-formed game, the move succeeds and declares a win exactly
when the new trail has length `cols*rows` with every grid cell appearing
exactly once, the first-visit order of checkpoint numbers along the trail is
`1..K` exactly, and the final trail cell — the player's cell — is the goal
cell, the cell of the anchor numbered `K`. -/
theorem move_forward_win_iff (s : GameState) (d : Dir) (finalA : Anchor)
    (hgo : s.gameOver = false)
    (hb : inGridP s.cols s.rows (targetCell s.player d))
    (hw : blockedByWall s.walls s.player.1 s.player.2 (targetCell s.player d).1
      (targetCell s.player d).2 = false)
    (hfwd : targetCell s.player d ∉ s.trail)
    (hnodup : s.trail.Nodup)
    (hgrid : ∀ c ∈ s.trail, inGridP s.cols s.rows c)
    (hfin : s.anchors.find? (fun a => a.n == s.anchors.length) = some finalA) :
    ∃ s' : GameState, move s d = some s' ∧
      s'.trail = s.trail ++ [targetCell s.player d] ∧
      s'.player = targetCell s.player d ∧
      (s'.gameOver = true ↔
        (s'.trail.length = s.cols * s.rows ∧
          ∀ c, inGridP s.cols s.rows c → s'.trail.count c = 1) ∧
        numbersFirstOrder s.anchors s'.trail = (List.range s.anchors.length).map (· + 1) ∧
        s'.trail.getLast? = some (finalA.x, finalA.y)) := by
  obtain ⟨hb1, hb2, hb3, hb4⟩ := hb
  simp only [move]
  rw [if_neg (by rw [hgo]; simp), if_neg (by push_neg; exact ⟨hb1, hb3, hb2, hb4⟩),
    if_neg (by simp [hw]), if_neg hfwd, hfin]
  refine ⟨_, rfl, rfl, rfl, ?_⟩
  simp only [Bool.and_eq_true, beq_iff_eq, List.getLast?_concat, Option.some.injEq]
  constructor
  · rintro ⟨⟨hwa, hvo⟩, hag⟩
    refine ⟨⟨hwa, ?_⟩, hvo, ?_⟩
    · refine coverage_of_nodup_length ?_ ?_ hwa
      · rw [List.nodup_append]
        exact ⟨hnodup, List.nodup_singleton _, by simpa using hfwd⟩
      · intro c hc
        rcases List.mem_append.mp hc with hc | hc
        · exact hgrid c hc
        · rw [List.mem_singleton.mp hc]
          exact ⟨hb1, hb2, hb3, hb4⟩
    · obtain ⟨h1, h2⟩ := hag
      exact Prod.ext h1 h2
  · rintro ⟨⟨hwa, _⟩, hvo, hag⟩
    exact ⟨⟨hwa, hvo⟩, by rw [hag], by rw [hag]⟩

/-- Concrete running game used to witness the win-evaluation theorem. -/
def winState : GameState :=
  { cols := 2, rows := 2, anchors := [⟨0, 0, 1⟩, ⟨0, 1, 2⟩], walls := ∅,
    player := (1, 1), trail := [(0, 0), (1, 0), (1, 1)],
    visitedCells := {(0, 0), (1, 0), (1, 1)}, gameOver := false, hasStarted := true }

theorem move_forward_win_iff_witness :
    ∃ s' : GameState, move winState Dir.left = some s' ∧
      s'.trail = winState.trail ++ [targetCell winState.player Dir.left] ∧
      s'.player = targetCell winState.player Dir.left ∧
      (s'.gameOver = true ↔
        (s'.trail.length = winState.cols * winState.rows ∧
          ∀ c, inGridP winState.cols winState.rows c → s'.trail.count c = 1) ∧
        numbersFirstOrder winState.anchors s'.trail =
          (List.range winState.anchors.length).map (· + 1) ∧
        s'.trail.getLast? = some ((0 : ℤ), (1 : ℤ))) :=
  move_forward_win_iff winState Dir.left ⟨0, 1, 2⟩ (by decide) (by decide) (by decide)
    (by decide) (by decide) (by decide) (by decide)

/-- C9: a start cell bearing a checkpoint number other than 1 makes
`isLayoutSolvable` answer false for every search budget; the result does not
depend on the fuel at all, reflecting that the rejection happens before any
search. -/
theorem isLayoutSolvable_bad_start (L : Layout) (sx sy gx gy : ℤ) (fuel : ℕ) (n : ℕ)
    (hn : getCellNumber L.anchors sx sy = some n) (h1 : n ≠ 1) :
    isLayoutSolvable L sx sy gx gy fuel = false := by
  simp only [isLayoutSolvable]
  rw [if_pos]
  constructor
  · rw [hn]
    rfl
  · rw [hn]
    simp [h1]

theorem isLayoutSolvable_bad_start_witness :
    getCellNumber [Anchor.mk 0 0 2] 0 0 = some 2 ∧
    isLayoutSolvable ⟨2, 2, [Anchor.mk 0 0 2], ∅⟩ 0 0 1 1 64 = false :=
  ⟨by decide, isLayoutSolvable_bad_start ⟨2, 2, [Anchor.mk 0 0 2], ∅⟩ 0 0 1 1 64 2
    (by decide) (by decide)⟩

theorem isLayoutSolvable_sound_witness :
    isLayoutSolvable ⟨2, 2, [Anchor.mk 0 0 1, Anchor.mk 0 1 2], ∅⟩ 0 0 0 1 8 = true ∧
    ∃ trail : List Cell,
      ValidTrail ⟨2, 2, [Anchor.mk 0 0 1, Anchor.mk 0 1 2], ∅⟩ (0, 0) (0, 1) trail :=
  ⟨by decide, isLayoutSolvable_sound ⟨2, 2, [Anchor.mk 0 0 1, Anchor.mk 0 1 2], ∅⟩
    0 0 0 1 8 (by decide) (by decide)⟩

/-- C10 (amended): in a running game, a move onto an in-bounds, unblocked
target that is already on the trail pops exactly the last trail element and
places the player on the target when the target is the immediate
predecessor (second-to-last trail cell), and otherwise changes nothing;
`visitedCells`, `gameOver` and all other state are untouched either way. -/
theorem move_revisit_frame (s : GameState) (d : Dir)
    (hgo : s.gameOver = false)
    (hb : inGridP s.cols s.rows (targetCell s.player d))
    (hw : blockedByWall s.walls s.player.1 s.player.2 (targetCell s.player d).1
      (targetCell s.player d).2 = false)
    (hin : targetCell s.player d ∈ s.trail) :
    move s d = some (if isImmediateBack s.trail (targetCell s.player d).1
        (targetCell s.player d).2 then
      { s with
          trail := s.trail.dropLast,
          player := targetCell s.player d }
    else s) := by
  obtain ⟨hb1, hb2, hb3, hb4⟩ := hb
  simp only [move]
  rw [if_neg (by rw [hgo]; simp), if_neg (by push_neg; exact ⟨hb1, hb3, hb2, hb4⟩),
    if_neg (by simp [hw]), if_pos hin]
  by_cases hib : isImmediateBack s.trail (targetCell s.player d).1
      (targetCell s.player d).2 = true
  · rw [if_pos hib, if_pos hib]
  · rw [if_neg hib, if_neg hib]

theorem move_revisit_frame_witness :
    move winState Dir.up = some (if isImmediateBack winState.trail
        (targetCell winState.player Dir.up).1 (targetCell winState.player Dir.up).2 then
      { winState with
          trail := winState.trail.dropLast,
          player := targetCell winState.player Dir.up }
    else winState) :=
  move_revisit_frame winState Dir.up (by decide) (by decide) (by decide) (by decide)

/-- A finished 2×2 game refuting the unrestricted backdraw claim. -/
def doneState : GameState :=
  { cols := 2, rows := 2, anchors := [⟨0, 0, 1⟩, ⟨0, 1, 2⟩], walls := ∅,
    player := (1, 0), trail := [(0, 0), (1, 0)],
    visitedCells := {(0, 0), (1, 0)}, gameOver := true, hasStarted := true }

/-- C10 counterexample: in `doneState` the game is over; the target of a
left move is in bounds, unblocked, on the trail, and is the immediate
predecessor, yet `move` changes nothing instead of popping the last trail
element as the claim requires for every such state. -/
theorem move_backdraw_counterexample :
    inGridP doneState.cols doneState.rows (targetCell doneState.player Dir.left) ∧
    blockedByWall doneState.walls doneState.player.1 doneState.player.2
      (targetCell doneState.player Dir.left).1 (targetCell doneState.player Dir.left).2
      = false ∧
    targetCell doneState.player Dir.left ∈ doneState.trail ∧
    isImmediateBack doneState.trail (targetCell doneState.player Dir.left).1
      (targetCell doneState.player Dir.left).2 = true ∧
    move doneState Dir.left = some doneState ∧
    move doneState Dir.left ≠ some { doneState with
      trail := doneState.trail.dropLast,
      player := targetCell doneState.player Dir.left } := by
  decide

/-- `snake.findIndex(s => keyOf(s) === keyOf(c))`: first index, or `-1`. -/
def jsFindIndex (snake : List Cell) (c : Cell) : ℤ :=
  match snake.findIdx? (fun s => s == c) with
  | some i => (i : ℤ)
  | none => -1

theorem findIdx?_beq_of_nodup {l : List Cell} :
    l.Nodup → ∀ {i : ℕ} {a : Cell}, l.get? i = some a →
      l.findIdx? (fun s => s == a) = some i := by
  induction l with
  | nil => intro _ i a h; simp at h
  | cons s t ih =>
    intro hnd i a h
    rcases i with _ | m
    · simp only [List.get?_eq_getElem?, List.getElem?_cons_zero, Option.some.injEq] at h
      subst h
      rw [List.findIdx?_cons, if_pos (beq_iff_eq.mpr rfl)]
    · simp only [List.get?_eq_getElem?, List.getElem?_cons_succ] at h
      have hget : t.get? m = some a := by rw [List.get?_eq_getElem?]; exact h
      have hmem : a ∈ t := by
        rw [List.getElem?_eq_some] at h
        obtain ⟨hlt, h⟩ := h
        exact h ▸ List.getElem_mem hlt
      have hne : ¬(s == a) = true := fun hc =>
        (List.nodup_cons.mp hnd).1 (beq_iff_eq.mp hc ▸ hmem)
      rw [List.findIdx?_cons, if_neg hne, List.findIdx?_succ,
        ih (List.nodup_cons.mp hnd).2 hget]
      rfl

theorem jsFindIndex_of_get? {snake : List Cell} (hnd : snake.Nodup) {i : ℕ} {a : Cell}
    (h : snake.get? i = some a) : jsFindIndex snake a = (i : ℤ) := by
  rw [jsFindIndex, findIdx?_beq_of_nodup hnd h]

/-- The lower-indexed cell of a wall edge. -/
def wallCellA (w : Wall) : Cell := w.1

/-- The right/down partner cell of a wall edge. -/
def wallCellB (w : Wall) : Cell :=
  match w.2 with
  | .right => (w.1.1 + 1, w.1.2)
  | .down => (w.1.1, w.1.2 + 1)

/-- One candidate edge of the wall-building scan: a non-consecutive edge
consumes one random draw and is walled when the draw is below `wallPct`
(the short-circuit of `!consecutive && Math.random() < wallPct`). -/
def wallStep (snake : List Cell) (wallPct : ℚ) (c : Cell) (dirn : WallDir) (b : Cell)
    (acc : Finset Wall × Rng) : Finset Wall × Rng :=
  if ¬(jsFindIndex snake c - jsFindIndex snake b).natAbs = 1 then
    ((if (acc.2.next).1 < wallPct then insert (c, dirn) acc.1 else acc.1), (acc.2.next).2)
  else acc

/-- `buildShortcutWallsFromSnake(snake, wallPct)`: the previous wall set is
passed in and discarded (`walls.clear()`), then every rightward and downward
grid edge is scanned in row-major order. -/
def buildShortcutWallsFromSnake (_oldWalls : Finset Wall) (snake : List Cell)
    (cols rows : ℕ) (wallPct : ℚ) (rng : Rng) : Finset Wall × Rng :=
  (List.range rows).foldl (fun acc y =>
    (List.range cols).foldl (fun acc x =>
      let c : Cell := (Int.ofNat x, Int.ofNat y)
      let acc1 :=
        if x + 1 < cols then
          wallStep snake wallPct c .right (Int.ofNat x + 1, Int.ofNat y) acc
        else acc
      if y + 1 < rows then
        wallStep snake wallPct c .down (Int.ofNat x, Int.ofNat y + 1) acc1
      else acc1) acc) (∅, rng)

theorem foldl_preserve {α β : Type} (P : β → Prop) (f : β → α → β)
    (hf : ∀ b a, P b → P (f b a)) :
    ∀ (l : List α) (b : β), P b → P (l.foldl f b) := by
  intro l
  induction l with
  | nil => intro b hb; exact hb
  | cons a t ih => intro b hb; exact ih (f b a) (hf b a hb)

theorem wallStep_preserve {snake : List Cell} {wallPct : ℚ} {c b : Cell} {dirn : WallDir}
    {acc : Finset Wall × Rng} (hnd : snake.Nodup)
    (hb : wallCellB (c, dirn) = b)
    (hP : ∀ w ∈ acc.1, ∀ i j : ℕ, snake.get? i = some (wallCellA w) →
      snake.get? j = some (wallCellB w) → ¬((i : ℤ) - (j : ℤ)).natAbs = 1) :
    ∀ w ∈ (wallStep snake wallPct c dirn b acc).1, ∀ i j : ℕ,
      snake.get? i = some (wallCellA w) → snake.get? j = some (wallCellB w) →
      ¬((i : ℤ) - (j : ℤ)).natAbs = 1 := by
  intro w hw i j hA hB
  rw [wallStep] at hw
  by_cases hcons : ¬(jsFindIndex snake c - jsFindIndex snake b).natAbs = 1
  · rw [if_pos hcons] at hw
    by_cases hq : (acc.2.next).1 < wallPct
    · rw [if_pos hq] at hw
      rcases Finset.mem_insert.mp hw with rfl | hw
      · rw [wallCellA] at hA
        rw [hb] at hB
        rw [jsFindIndex_of_get? hnd hA, jsFindIndex_of_get? hnd hB] at hcons
        exact hcons
      · exact hP w hw i j hA hB
    · rw [if_neg hq] at hw
      exact hP w hw i j hA hB
  · rw [if_neg hcons] at hw
    exact hP w hw i j hA hB

/-- C4: for every Hamiltonian generating path (nodup suffices), every wall
probability, previous wall set and random stream, no wall produced by
`buildShortcutWallsFromSnake` lies on an edge whose endpoint cells sit at
path-index distance exactly 1; moreover the previous wall set is discarded —
the set is cleared and fully rebuilt from empty on each call. -/
theorem buildShortcutWalls_safe (oldWalls : Finset Wall) (snake : List Cell)
    (cols rows : ℕ) (wallPct : ℚ) (rng : Rng) (hnd : snake.Nodup) :
    (∀ w ∈ (buildShortcutWallsFromSnake oldWalls snake cols rows wallPct rng).1,
      ∀ i j : ℕ, snake.get? i = some (wallCellA w) → snake.get? j = some (wallCellB w) →
        ¬((i : ℤ) - (j : ℤ)).natAbs = 1) ∧
    buildShortcutWallsFromSnake oldWalls snake cols rows wallPct rng =
      buildShortcutWallsFromSnake ∅ snake cols rows wallPct rng := by
  refine ⟨?_, rfl⟩
  rw [buildShortcutWallsFromSnake]
  refine foldl_preserve (fun acc : Finset Wall × Rng => ∀ w ∈ acc.1, ∀ i j : ℕ,
    snake.get? i = some (wallCellA w) → snake.get? j = some (wallCellB w) →
    ¬((i : ℤ) - (j : ℤ)).natAbs = 1) _ ?_ _ _ ?_
  · intro acc y hacc
    refine foldl_preserve (fun acc : Finset Wall × Rng => ∀ w ∈ acc.1, ∀ i j : ℕ,
      snake.get? i = some (wallCellA w) → snake.get? j = some (wallCellB w) →
      ¬((i : ℤ) - (j : ℤ)).natAbs = 1) _ ?_ _ _ ?_
    · intro acc2 x hacc2
      simp only []
      split_ifs with h1 h2
      · exact wallStep_preserve hnd rfl (wallStep_preserve hnd rfl hacc2)
      · exact wallStep_preserve hnd rfl hacc2
      · exact wallStep_preserve hnd rfl hacc2
      · exact hacc2
    · exact hacc
  · intro w hw
    simp at hw

/-- The 2×2 serpentine used to witness wall safety. -/
def wallsWitnessSnake : List Cell := [(0, 0), (1, 0), (1, 1), (0, 1)]

theorem buildShortcutWalls_safe_witness :
    (∀ w ∈ (buildShortcutWallsFromSnake {(((0 : ℤ), (0 : ℤ)), WallDir.right)}
        wallsWitnessSnake 2 2 1 (fun _ => 0)).1,
      ∀ i j : ℕ, wallsWitnessSnake.get? i = some (wallCellA w) →
        wallsWitnessSnake.get? j = some (wallCellB w) →
        ¬((i : ℤ) - (j : ℤ)).natAbs = 1) ∧
    buildShortcutWallsFromSnake {(((0 : ℤ), (0 : ℤ)), WallDir.right)}
        wallsWitnessSnake 2 2 1 (fun _ => 0) =
      buildShortcutWallsFromSnake ∅ wallsWitnessSnake 2 2 1 (fun _ => 0) :=
  buildShortcutWalls_safe {(((0 : ℤ), (0 : ℤ)), WallDir.right)} wallsWitnessSnake 2 2 1
    (fun _ => 0) (by decide)

/-- A JS destructuring swap of two list positions; out-of-range positions
(only reachable from draws outside `[0,1)`) leave the list unchanged. -/
def listSwap {α : Type} (l : List α) (i j : ℕ) : List α :=
  match l.get? i, l.get? j with
  | some a, some b => (l.set i b).set j a
  | some _, none => l
  | none, _ => l

/-- `shuffleArray(arr)`: in-place Fisher-Yates, `i` from `length - 1` down
to 1, swapping with `j = Math.floor(Math.random() * (i + 1))`. -/
def shuffleArray {α : Type} (arr : List α) (rng : Rng) : List α × Rng :=
  ((List.range' 1 (arr.length - 1)).reverse).foldl (fun acc i =>
    (listSwap acc.1 i (jsFloorNat ((acc.2.next).1 * (i + 1))), (acc.2.next).2))
    (arr, rng)

theorem count_cons_dec {α : Type} [DecidableEq α] (v x : α) (t : List α) :
    List.count v (x :: t) = List.count v t + if x = v then 1 else 0 := by
  rw [List.count_cons]
  congr 1
  by_cases h : x = v <;> simp [h]

theorem count_set_add {α : Type} [DecidableEq α] (v b : α) :
    ∀ (l : List α) (n : ℕ) (hn : n < l.length),
      (l.set n b).count v + (if l[n] = v then 1 else 0)
        = l.count v + (if b = v then 1 else 0) := by
  intro l
  induction l with
  | nil => intro n hn; simp at hn
  | cons x t ih =>
    intro n hn
    rcases n with _ | m
    · show List.count v (b :: t) + _ = _
      rw [count_cons_dec, count_cons_dec]
      have hg0 : (x :: t)[0] = x := rfl
      rw [hg0]
      omega
    · show List.count v (x :: t.set m b) + _ = _
      rw [count_cons_dec, count_cons_dec]
      have hm : m < t.length := by simpa using hn
      have := ih m hm
      have hg : (x :: t)[m + 1] = t[m] := by simp
      rw [hg]
      omega

theorem listSwap_perm {α : Type} [DecidableEq α] (l : List α) (i j : ℕ) :
    (listSwap l i j).Perm l := by
  rcases hi : l[i]? with _ | a
  · simp [listSwap, hi]
  rcases hj : l[j]? with _ | b
  · simp [listSwap, hi, hj]
  simp only [listSwap, List.get?_eq_getElem?, hi, hj]
  rw [List.getElem?_eq_some] at hi hj
  obtain ⟨hi', ha⟩ := hi
  obtain ⟨hj', hb⟩ := hj
  rw [List.perm_iff_count]
  intro v
  have hlen1 : j < (l.set i b).length := by simpa using hj'
  have e1 := count_set_add v a (l.set i b) j hlen1
  have e2 := count_set_add v b l i hi'
  have hgs : (l.set i b)[j] = if i = j then b else l[j] := List.getElem_set _
  by_cases hij : i = j
  · subst hij
    have hab : a = b := by rw [← ha, ← hb]
    subst hab
    rw [if_pos rfl] at hgs
    rw [hgs] at e1
    rw [ha] at e2
    omega
  · rw [if_neg hij, hb] at hgs
    rw [hgs] at e1
    rw [ha] at e2
    omega

theorem shuffleArray_perm {α : Type} [DecidableEq α] (arr : List α) (rng : Rng) :
    (shuffleArray arr rng).1.Perm arr := by
  rw [shuffleArray]
  refine foldl_preserve (fun acc : List α × Rng => acc.1.Perm arr) _ ?_ _ _ (List.Perm.refl arr)
  intro acc i hacc
  exact (listSwap_perm acc.1 i _).trans hacc

/-- One step of the greedy spacing loop of `pickIndicesWithMinGap`: stop at
`K` picks, accept `idx` only at distance ≥ `minGap` from every pick. -/
def greedyStep (K minGap : ℕ) (picks : List ℕ) (idx : ℕ) : List ℕ :=
  if picks.length = K then picks
  else if picks.all (fun p => minGap ≤ ((p : ℤ) - (idx : ℤ)).natAbs) then picks ++ [idx]
  else picks

/-- One step of the fallback fill loop: while fewer than `K` picks, append
the next pool entry not already picked. -/
def fillStep (K : ℕ) (picks : List ℕ) (p : ℕ) : List ℕ :=
  if picks.length < K ∧ p ∉ picks then picks ++ [p] else picks

/-- The greedy pick, fill, and ascending sort of `pickIndicesWithMinGap`,
applied to the already-shuffled pool. -/
def pickFromPool (pool : List ℕ) (K minGap : ℕ) : List ℕ :=
  ((pool.foldl (fillStep K) (pool.foldl (greedyStep K minGap) [])).mergeSort
    (fun a b => decide (a ≤ b)))

/-- `pickIndicesWithMinGap(len, K, minGap)`. -/
def pickIndicesWithMinGap (len K minGap : ℕ) (rng : Rng) : List ℕ × Rng :=
  ((pickFromPool (shuffleArray (List.range len) rng).1 K minGap),
    (shuffleArray (List.range len) rng).2)

theorem greedy_fold_inv (K minGap : ℕ) :
    ∀ (rem picks : List ℕ), rem.Nodup → picks.Nodup → (∀ p ∈ picks, p ∉ rem) →
      picks.length ≤ K →
      (rem.foldl (greedyStep K minGap) picks).Nodup ∧
      (rem.foldl (greedyStep K minGap) picks).length ≤ K ∧
      (∀ p ∈ rem.foldl (greedyStep K minGap) picks, p ∈ picks ∨ p ∈ rem) := by
  intro rem
  induction rem with
  | nil =>
    intro picks _ hnd _ hle
    exact ⟨hnd, hle, fun p hp => Or.inl hp⟩
  | cons a t ih =>
    intro picks hremnd hnd hdisj hle
    have htnd : t.Nodup := (List.nodup_cons.mp hremnd).2
    have hat : a ∉ t := (List.nodup_cons.mp hremnd).1
    rw [List.foldl_cons]
    have hcases : greedyStep K minGap picks a = picks ∨
        (greedyStep K minGap picks a = picks ++ [a] ∧ picks.length < K) := by
      rw [greedyStep]
      split_ifs with h1 h2
      · exact Or.inl rfl
      · exact Or.inr ⟨rfl, Nat.lt_of_le_of_ne hle h1⟩
      · exact Or.inl rfl
    rcases hcases with heq | ⟨heq, hlt⟩
    · rw [heq]
      obtain ⟨r1, r2, r3⟩ := ih picks htnd hnd
        (fun p hp => fun hpt => hdisj p hp (List.mem_cons_of_mem a hpt)) hle
      exact ⟨r1, r2, fun p hp => (r3 p hp).imp id (List.mem_cons_of_mem a)⟩
    · rw [heq]
      have hha : a ∉ picks := fun hin => hdisj a hin (List.mem_cons_self a t)
      have hnd2 : (picks ++ [a]).Nodup := by
        rw [List.nodup_append]
        exact ⟨hnd, List.nodup_singleton a, by simpa using hha⟩
      have hdisj2 : ∀ p ∈ picks ++ [a], p ∉ t := by
        intro p hp
        rcases List.mem_append.mp hp with hp | hp
        · exact fun hpt => hdisj p hp (List.mem_cons_of_mem a hpt)
        · rw [List.mem_singleton.mp hp]
          exact hat
      obtain ⟨r1, r2, r3⟩ := ih (picks ++ [a]) htnd hnd2 hdisj2 (by simpa using hlt)
      refine ⟨r1, r2, fun p hp => ?_⟩
      rcases r3 p hp with hp2 | hp2
      · rcases List.mem_append.mp hp2 with hp3 | hp3
        · exact Or.inl hp3
        · exact Or.inr (by simp [List.mem_singleton.mp hp3])
      · exact Or.inr (List.mem_cons_of_mem a hp2)

theorem fill_fold_inv (K : ℕ) :
    ∀ (rem picks : List ℕ), picks.Nodup → picks.length ≤ K →
      (rem.foldl (fillStep K) picks).Nodup ∧
      (rem.foldl (fillStep K) picks).length ≤ K ∧
      (∀ p ∈ rem.foldl (fillStep K) picks, p ∈ picks ∨ p ∈ rem) ∧
      (∀ p ∈ picks, p ∈ rem.foldl (fillStep K) picks) := by
  intro rem
  induction rem with
  | nil =>
    intro picks hnd hle
    exact ⟨hnd, hle, fun p hp => Or.inl hp, fun p hp => hp⟩
  | cons a t ih =>
    intro picks hnd hle
    rw [List.foldl_cons, fillStep]
    split_ifs with h1
    · have hnd2 : (picks ++ [a]).Nodup := by
        rw [List.nodup_append]
        exact ⟨hnd, List.nodup_singleton a, by simpa using h1.2⟩
      obtain ⟨r1, r2, r3, r4⟩ := ih (picks ++ [a]) hnd2 (by simpa using h1.1)
      refine ⟨r1, r2, fun p hp => ?_, fun p hp => r4 p (List.mem_append_left _ hp)⟩
      rcases r3 p hp with hp2 | hp2
      · rcases List.mem_append.mp hp2 with hp3 | hp3
        · exact Or.inl hp3
        · exact Or.inr (by simp [List.mem_singleton.mp hp3])
      · exact Or.inr (List.mem_cons_of_mem a hp2)
    · obtain ⟨r1, r2, r3, r4⟩ := ih picks hnd hle
      exact ⟨r1, r2, fun p hp => (r3 p hp).imp id (List.mem_cons_of_mem a),
        fun p hp => r4 p hp⟩

theorem fill_fold_reaches (K : ℕ) :
    ∀ (rem picks : List ℕ), picks.Nodup → picks.length ≤ K →
      (rem.foldl (fillStep K) picks).length = K ∨
      (∀ p ∈ rem, p ∈ rem.foldl (fillStep K) picks) := by
  intro rem
  induction rem with
  | nil => intro picks _ _; exact Or.inr (fun p hp => absurd hp (List.not_mem_nil p))
  | cons a t ih =>
    intro picks hnd hle
    rw [List.foldl_cons, fillStep]
    split_ifs with h1
    · have hnd2 : (picks ++ [a]).Nodup := by
        rw [List.nodup_append]
        exact ⟨hnd, List.nodup_singleton a, by simpa using h1.2⟩
      rcases ih (picks ++ [a]) hnd2 (by simpa using h1.1) with h | h
      · exact Or.inl h
      · refine Or.inr (fun p hp => ?_)
        rcases List.mem_cons.mp hp with rfl | hp
        · exact (fill_fold_inv K t _ hnd2 (by simpa using h1.1)).2.2.2 p
            (List.mem_append_right _ (List.mem_singleton_self p))
        · exact h p hp
    · push_neg at h1
      by_cases hlen : picks.length < K
      · have ha : a ∈ picks := h1 hlen
        rcases ih picks hnd hle with h | h
        · exact Or.inl h
        · refine Or.inr (fun p hp => ?_)
          rcases List.mem_cons.mp hp with rfl | hp
          · exact (fill_fold_inv K t picks hnd hle).2.2.2 p ha
          · exact h p hp
      · have hKlen : picks.length = K := by omega
        left
        have hsub := (fill_fold_inv K t picks hnd hle).2.2.2
        have hle2 := (fill_fold_inv K t picks hnd hle).2.1
        have hnd2 := (fill_fold_inv K t picks hnd hle).1
        have hge : K ≤ (t.foldl (fillStep K) picks).length := by
          calc K = picks.toFinset.card := by
                rw [List.toFinset_card_of_nodup hnd, hKlen]
            _ ≤ (t.foldl (fillStep K) picks).toFinset.card := by
                apply Finset.card_le_card
                intro p hp
                exact List.mem_toFinset.mpr (hsub p (List.mem_toFinset.mp hp))
            _ ≤ (t.foldl (fillStep K) picks).length := List.toFinset_card_le _
        omega

theorem pickFromPool_props (pool : List ℕ) (K minGap : ℕ)
    (hnd : pool.Nodup) (hK : K ≤ pool.length) :
    (pickFromPool pool K minGap).length = K ∧
    (pickFromPool pool K minGap).Nodup ∧
    List.Sorted (· ≤ ·) (pickFromPool pool K minGap) ∧
    (∀ p ∈ pickFromPool pool K minGap, p ∈ pool) := by
  obtain ⟨g1, g2, g3⟩ :=
    greedy_fold_inv K minGap pool [] hnd List.nodup_nil (by simp) (by simp)
  obtain ⟨f1, f2, f3, f4⟩ := fill_fold_inv K pool (pool.foldl (greedyStep K minGap) []) g1 g2
  have hlen : (pool.foldl (fillStep K) (pool.foldl (greedyStep K minGap) [])).length = K := by
    rcases fill_fold_reaches K pool (pool.foldl (greedyStep K minGap) []) g1 g2 with h | h
    · exact h
    · have hge : pool.length ≤
          (pool.foldl (fillStep K) (pool.foldl (greedyStep K minGap) [])).length := by
        calc pool.length = pool.toFinset.card := (List.toFinset_card_of_nodup hnd).symm
          _ ≤ (pool.foldl (fillStep K)
                (pool.foldl (greedyStep K minGap) [])).toFinset.card :=
              Finset.card_le_card (fun p hp =>
                List.mem_toFinset.mpr (h p (List.mem_toFinset.mp hp)))
          _ ≤ _ := List.toFinset_card_le _
      omega
  have hperm : (pickFromPool pool K minGap).Perm
      (pool.foldl (fillStep K) (pool.foldl (greedyStep K minGap) [])) := by
    rw [pickFromPool]
    exact List.mergeSort_perm _ _
  refine ⟨by rw [hperm.length_eq, hlen], hperm.symm.nodup f1, ?_, ?_⟩
  · rw [pickFromPool]
    have hpw : List.Pairwise (fun a b : ℕ => decide (a ≤ b) = true)
        ((pool.foldl (fillStep K) (pool.foldl (greedyStep K minGap) [])).mergeSort
          (fun a b => decide (a ≤ b))) :=
      by
        apply List.sorted_mergeSort
        · intro a b c h1 h2
          exact decide_eq_true (le_trans (of_decide_eq_true h1) (of_decide_eq_true h2))
        · intro a b
          rcases Nat.le_total a b with h | h <;> simp [h]
    exact hpw.imp (fun h => of_decide_eq_true h)
  · intro p hp
    rcases f3 p (hperm.mem_iff.mp hp) with hp2 | hp2
    · rcases g3 p hp2 with hp3 | hp3
      · exact absurd hp3 (List.not_mem_nil p)
      · exact hp3
    · exact hp2

/-- The cyclic checkpoint number of the `j`-th sorted pick:
`((j - shift + K) % K) + 1`, computed in JS number arithmetic. -/
def anchorNumber (shift K j : ℕ) : ℕ :=
  ((((j : ℤ) - (shift : ℤ) + (K : ℤ)) % (K : ℤ)) + 1).toNat

/-- The anchor-construction loop of `generateLevel`: the `j`-th sorted pick
receives number `((j - shift + K) % K) + 1`; `none` models the `TypeError`
thrown when `idxs[j]` or `snake[idx]` is `undefined`. -/
def assignAnchors (snake : List Cell) (idxs : List ℕ) (shift K : ℕ) :
    Option (List Anchor) :=
  (List.range K).mapM (fun j =>
    (idxs.get? j).bind (fun idx =>
      (snake.get? idx).map (fun c => Anchor.mk c.1 c.2 (anchorNumber shift K j))))

theorem mapM_option_eq_some {α β : Type} (f : α → Option β) (g : α → β) :
    ∀ (l : List α), (∀ a ∈ l, f a = some (g a)) → l.mapM f = some (l.map g) := by
  intro l
  induction l with
  | nil => intro _; rfl
  | cons a t ih =>
    intro h
    rw [List.mapM_cons, h a (List.mem_cons_self a t),
      ih (fun x hx => h x (List.mem_cons_of_mem a hx))]
    rfl

theorem anchorNumber_bounds {shift K : ℕ} (hK : 0 < K) (j : ℕ) :
    1 ≤ anchorNumber shift K j ∧ anchorNumber shift K j ≤ K := by
  have hKz : (K : ℤ) ≠ 0 := by exact_mod_cast hK.ne'
  have h1 : 0 ≤ ((j : ℤ) - shift + K) % K := Int.emod_nonneg _ hKz
  have h2 : ((j : ℤ) - shift + K) % K < K := Int.emod_lt_of_pos _ (by exact_mod_cast hK)
  unfold anchorNumber
  omega

theorem anchorNumber_inj {shift K : ℕ} (j1 j2 : ℕ) (hj1 : j1 < K) (hj2 : j2 < K)
    (h : anchorNumber shift K j1 = anchorNumber shift K j2) : j1 = j2 := by
  have hK : 0 < K := by omega
  have hKz : (K : ℤ) ≠ 0 := by exact_mod_cast hK.ne'
  have h1 : 0 ≤ ((j1 : ℤ) - shift + K) % K := Int.emod_nonneg _ hKz
  have h2 : ((j1 : ℤ) - shift + K) % K < K := Int.emod_lt_of_pos _ (by exact_mod_cast hK)
  have h3 : 0 ≤ ((j2 : ℤ) - shift + K) % K := Int.emod_nonneg _ hKz
  have h4 : ((j2 : ℤ) - shift + K) % K < K := Int.emod_lt_of_pos _ (by exact_mod_cast hK)
  unfold anchorNumber at h
  have hr : ((j1 : ℤ) - shift + K) % K = ((j2 : ℤ) - shift + K) % K := by omega
  have hdvd : (K : ℤ) ∣ (((j1 : ℤ) - shift + K) - ((j2 : ℤ) - shift + K)) :=
    Int.dvd_of_emod_eq_zero (Int.emod_eq_emod_iff_emod_sub_eq_zero.mp hr)
  have hdvd2 : (K : ℤ) ∣ ((j1 : ℤ) - (j2 : ℤ)) := by
    have : ((j1 : ℤ) - shift + K) - ((j2 : ℤ) - shift + K) = (j1 : ℤ) - j2 := by ring
    rwa [this] at hdvd
  have habs : |(j1 : ℤ) - (j2 : ℤ)| < K := by
    rw [abs_lt]
    constructor <;> omega
  have := Int.eq_zero_of_abs_lt_dvd hdvd2 habs
  omega

theorem anchorNumbers_perm (shift K : ℕ) :
    ((List.range K).map (anchorNumber shift K)).Perm ((List.range K).map (· + 1)) := by
  rcases Nat.eq_zero_or_pos K with rfl | hK
  · rfl
  have hnd1 : ((List.range K).map (anchorNumber shift K)).Nodup :=
    (List.nodup_range K).map_on (fun j1 h1 j2 h2 h =>
      anchorNumber_inj j1 j2 (List.mem_range.mp h1) (List.mem_range.mp h2) h)
  have hnd2 : ((List.range K).map (· + 1)).Nodup :=
    (List.nodup_range K).map_on (fun j1 _ j2 _ h => by omega)
  refine List.perm_of_nodup_nodup_toFinset_eq hnd1 hnd2 ?_
  have hc1 : ((List.range K).map (anchorNumber shift K)).toFinset.card = K := by
    rw [List.toFinset_card_of_nodup hnd1, List.length_map, List.length_range]
  have hc2 : ((List.range K).map (· + 1)).toFinset.card = K := by
    rw [List.toFinset_card_of_nodup hnd2, List.length_map, List.length_range]
  have hs1 : ((List.range K).map (anchorNumber shift K)).toFinset ⊆ Finset.Icc 1 K := by
    intro n hn
    rw [List.mem_toFinset, List.mem_map] at hn
    obtain ⟨j, _, rfl⟩ := hn
    rw [Finset.mem_Icc]
    exact anchorNumber_bounds hK j
  have hs2 : ((List.range K).map (· + 1)).toFinset ⊆ Finset.Icc 1 K := by
    intro n hn
    rw [List.mem_toFinset, List.mem_map] at hn
    obtain ⟨j, hj, rfl⟩ := hn
    rw [List.mem_range] at hj
    rw [Finset.mem_Icc]
    omega
  have hcard : (Finset.Icc 1 K).card = K := by rw [Nat.card_Icc]; omega
  rw [Finset.eq_of_subset_of_card_le hs1 (by omega),
    Finset.eq_of_subset_of_card_le hs2 (by omega)]

/-- C5: for every Hamiltonian path of length `len ≥ K`, every `minGap`,
every random stream and every cyclic shift in `[0, K)`, anchor placement
picks `K` distinct in-range path indices sorted ascending, and the
`((j - shift + K) % K) + 1` numbering yields anchors whose numbers are a
permutation of `1..K` and whose cells are pairwise distinct. -/
theorem anchor_placement (len K minGap shift : ℕ) (rng : Rng) (snake : List Cell)
    (hK : K ≤ len) (hshift : shift < K) (hslen : snake.length = len)
    (hsnd : snake.Nodup) :
    (pickIndicesWithMinGap len K minGap rng).1.length = K ∧
    (pickIndicesWithMinGap len K minGap rng).1.Nodup ∧
    List.Sorted (· ≤ ·) (pickIndicesWithMinGap len K minGap rng).1 ∧
    (∀ i ∈ (pickIndicesWithMinGap len K minGap rng).1, i < len) ∧
    ∃ anchors : List Anchor,
      assignAnchors snake (pickIndicesWithMinGap len K minGap rng).1 shift K
        = some anchors ∧
      (anchors.map Anchor.n).Perm ((List.range K).map (· + 1)) ∧
      (anchors.map (fun a => (a.x, a.y))).Nodup := by
  have hperm : (shuffleArray (List.range len) rng).1.Perm (List.range len) :=
    shuffleArray_perm (List.range len) rng
  have hpoolnd : (shuffleArray (List.range len) rng).1.Nodup :=
    hperm.symm.nodup (List.nodup_range len)
  have hpoollen : (shuffleArray (List.range len) rng).1.length = len := by
    rw [hperm.length_eq, List.length_range]
  obtain ⟨p1, p2, p3, p4⟩ := pickFromPool_props (shuffleArray (List.range len) rng).1
    K minGap hpoolnd (by omega)
  have hidxs : ∀ i ∈ (pickIndicesWithMinGap len K minGap rng).1, i < len := by
    intro i hi
    rw [pickIndicesWithMinGap] at hi
    exact List.mem_range.mp (hperm.mem_iff.mp (p4 i hi))
  have hlenK : (pickIndicesWithMinGap len K minGap rng).1.length = K := by
    rw [pickIndicesWithMinGap]
    exact p1
  refine ⟨hlenK, by rw [pickIndicesWithMinGap]; exact p2,
    by rw [pickIndicesWithMinGap]; exact p3, hidxs, ?_⟩
  set idxs := (pickIndicesWithMinGap len K minGap rng).1 with hidxsdef
  have hmapm : assignAnchors snake idxs shift K = some ((List.range K).map (fun j =>
      Anchor.mk (snake.getD (idxs.getD j 0) ((0 : ℤ), (0 : ℤ))).1
        (snake.getD (idxs.getD j 0) ((0 : ℤ), (0 : ℤ))).2 (anchorNumber shift K j))) := by
    rw [assignAnchors]
    apply mapM_option_eq_some
    intro j hj
    have hjlen : j < idxs.length := by rw [hlenK]; exact List.mem_range.mp hj
    have hidxlt : idxs.getD j 0 < snake.length := by
      rw [hslen, List.getD_eq_getElem idxs 0 hjlen]
      exact hidxs _ (List.getElem_mem hjlen)
    rw [List.get?_eq_getElem?, List.getElem?_eq_getElem hjlen,
      ← List.getD_eq_getElem idxs 0 hjlen]
    rw [Option.some_bind, List.get?_eq_getElem?, List.getElem?_eq_getElem hidxlt,
      ← List.getD_eq_getElem snake ((0 : ℤ), (0 : ℤ)) hidxlt]
    rfl
  refine ⟨_, hmapm, ?_, ?_⟩
  · rw [List.map_map]
    have : (Anchor.n ∘ fun j =>
        Anchor.mk (snake.getD (idxs.getD j 0) ((0 : ℤ), (0 : ℤ))).1
          (snake.getD (idxs.getD j 0) ((0 : ℤ), (0 : ℤ))).2 (anchorNumber shift K j))
        = anchorNumber shift K := rfl
    rw [this]
    exact anchorNumbers_perm shift K
  · rw [List.map_map]
    refine (List.nodup_range K).map_on ?_
    intro j1 hj1 j2 hj2 heq
    rw [List.mem_range] at hj1 hj2
    have hl1 : j1 < idxs.length := by omega
    have hl2 : j2 < idxs.length := by omega
    simp only [Function.comp] at heq
    have hcell : snake.getD (idxs.getD j1 0) ((0 : ℤ), (0 : ℤ))
        = snake.getD (idxs.getD j2 0) ((0 : ℤ), (0 : ℤ)) := by
      have e1 := congrArg Prod.fst heq
      have e2 := congrArg Prod.snd heq
      exact Prod.ext e1 e2
    have hi1 : idxs.getD j1 0 < snake.length := by
      rw [hslen, List.getD_eq_getElem idxs 0 hl1]
      exact hidxs _ (List.getElem_mem hl1)
    have hi2 : idxs.getD j2 0 < snake.length := by
      rw [hslen, List.getD_eq_getElem idxs 0 hl2]
      exact hidxs _ (List.getElem_mem hl2)
    rw [List.getD_eq_getElem snake _ hi1, List.getD_eq_getElem snake _ hi2] at hcell
    have hidxeq : idxs.getD j1 0 = idxs.getD j2 0 :=
      (hsnd.getElem_inj_iff).mp hcell
    rw [List.getD_eq_getElem idxs 0 hl1, List.getD_eq_getElem idxs 0 hl2] at hidxeq
    exact (p2.getElem_inj_iff).mp hidxeq

theorem anchor_placement_witness :
    (pickIndicesWithMinGap 4 2 0 (fun _ => 0)).1.length = 2 ∧
    (pickIndicesWithMinGap 4 2 0 (fun _ => 0)).1.Nodup ∧
    List.Sorted (· ≤ ·) (pickIndicesWithMinGap 4 2 0 (fun _ => 0)).1 ∧
    (∀ i ∈ (pickIndicesWithMinGap 4 2 0 (fun _ => 0)).1, i < 4) ∧
    ∃ anchors : List Anchor,
      assignAnchors wallsWitnessSnake (pickIndicesWithMinGap 4 2 0 (fun _ => 0)).1 1 2
        = some anchors ∧
      (anchors.map Anchor.n).Perm ((List.range 2).map (· + 1)) ∧
      (anchors.map (fun a => (a.x, a.y))).Nodup :=
  anchor_placement 4 2 0 1 (fun _ => 0) wallsWitnessSnake (by decide) (by decide)
    (by decide) (by decide)

/-- `buildSnakePathBase(cols, rows)`: the base serpentine path. -/
def buildSnakePathBase (cols rows : ℕ) : List Cell :=
  (List.range rows).flatMap (fun y =>
    if y % 2 = 0 then (List.range cols).map (fun x => (Int.ofNat x, Int.ofNat y))
    else ((List.range cols).reverse).map (fun x => (Int.ofNat x, Int.ofNat y)))

/-- `rotatePoint(p, rot, cols, rows)`. -/
def rotatePoint (p : Cell) (rot : ℕ) (cols rows : ℕ) : Cell :=
  match rot % 4 with
  | 0 => p
  | 1 => (p.2, (cols : ℤ) - 1 - p.1)
  | 2 => ((cols : ℤ) - 1 - p.1, (rows : ℤ) - 1 - p.2)
  | _ => ((rows : ℤ) - 1 - p.2, p.1)

/-- The horizontal mirror `pt => ({x: cols - 1 - pt.x, y: pt.y})`. -/
def hMirror (cols : ℕ) (p : Cell) : Cell := ((cols : ℤ) - 1 - p.1, p.2)

/-- The vertical mirror `pt => ({x: pt.x, y: rows - 1 - pt.y})`. -/
def vMirror (rows : ℕ) (p : Cell) : Cell := (p.1, (rows : ℤ) - 1 - p.2)

/-- The spec's Path invariant: length `cols*rows`, each grid cell exactly
once. -/
def IsHamiltonianPath (cols rows : ℕ) (path : List Cell) : Prop :=
  path.length = cols * rows ∧ path.Nodup ∧ ∀ c, c ∈ path ↔ inGridP cols rows c

theorem isHamiltonianPath_of_check {cols rows : ℕ} {path : List Cell}
    (hlen : path.length = cols * rows) (hnd : path.Nodup)
    (hgrid : ∀ c ∈ path, inGridP cols rows c) : IsHamiltonianPath cols rows path := by
  refine ⟨hlen, hnd, fun c => ⟨fun h => hgrid c h, fun h => ?_⟩⟩
  have hcount := coverage_of_nodup_length hnd hgrid hlen c h
  exact List.count_pos_iff.mp (by omega)

theorem rotatePoint_mod0 {p : Cell} {rot cols rows : ℕ} (h : rot % 4 = 0) :
    rotatePoint p rot cols rows = p := by
  rw [rotatePoint, h]

theorem rotatePoint_mod1 {p : Cell} {rot cols rows : ℕ} (h : rot % 4 = 1) :
    rotatePoint p rot cols rows = (p.2, (cols : ℤ) - 1 - p.1) := by
  rw [rotatePoint, h]

theorem rotatePoint_mod2 {p : Cell} {rot cols rows : ℕ} (h : rot % 4 = 2) :
    rotatePoint p rot cols rows = ((cols : ℤ) - 1 - p.1, (rows : ℤ) - 1 - p.2) := by
  rw [rotatePoint, h]

theorem rotatePoint_mod3 {p : Cell} {rot cols rows : ℕ} (h : rot % 4 = 3) :
    rotatePoint p rot cols rows = ((rows : ℤ) - 1 - p.2, p.1) := by
  rw [rotatePoint, h]

theorem map_closure {cols rows : ℕ} {f : Cell → Cell} {path : List Cell}
    (hpath : IsHamiltonianPath cols rows path)
    (hmaps : ∀ c, inGridP cols rows c → inGridP cols rows (f c))
    (hinj : ∀ a b, inGridP cols rows a → inGridP cols rows b → f a = f b → a = b) :
    (path.map f).length = path.length ∧
    (∀ c, c ∈ path.map f ↔ inGridP cols rows c) := by
  obtain ⟨hlen, hnd, hmem⟩ := hpath
  have hsub : (gridCells cols rows).image f ⊆ gridCells cols rows := by
    intro c hc
    rw [Finset.mem_image] at hc
    obtain ⟨a, ha, rfl⟩ := hc
    exact mem_gridCells.mpr (hmaps a (mem_gridCells.mp ha))
  have hcard : (gridCells cols rows).card ≤ ((gridCells cols rows).image f).card := by
    rw [Finset.card_image_of_injOn
      (fun a ha b hb => hinj a b (mem_gridCells.mp ha) (mem_gridCells.mp hb))]
  have himg : (gridCells cols rows).image f = gridCells cols rows :=
    Finset.eq_of_subset_of_card_le hsub hcard
  refine ⟨List.length_map _ _, fun c => ?_⟩
  rw [List.mem_map]
  constructor
  · rintro ⟨a, ha, rfl⟩
    exact hmaps a ((hmem a).mp ha)
  · intro hc
    have : c ∈ (gridCells cols rows).image f := by rw [himg]; exact mem_gridCells.mpr hc
    rw [Finset.mem_image] at this
    obtain ⟨a, ha, rfl⟩ := this
    exact ⟨a, (hmem a).mpr (mem_gridCells.mp ha), rfl⟩

/-- C8 (amended): mirroring (horizontal or vertical), reversing, and
rotation by 0°/180° preserve length and carry the cell set of a Hamiltonian
path onto the full grid for every `cols × rows`; rotation by 90°/270° does
so on square grids.  (On non-square grids the 90°/270° formulas map cells
off the grid — see the counterexample.) -/
theorem transform_closure :
    (∀ (cols rows : ℕ) (path : List Cell) (rot : ℕ),
      IsHamiltonianPath cols rows path → (rot % 4 = 0 ∨ rot % 4 = 2) →
      ((path.map (fun p => rotatePoint p rot cols rows)).length = path.length ∧
        ∀ c, c ∈ path.map (fun p => rotatePoint p rot cols rows) ↔
          inGridP cols rows c)) ∧
    (∀ (n : ℕ) (path : List Cell) (rot : ℕ),
      IsHamiltonianPath n n path →
      ((path.map (fun p => rotatePoint p rot n n)).length = path.length ∧
        ∀ c, c ∈ path.map (fun p => rotatePoint p rot n n) ↔ inGridP n n c)) ∧
    (∀ (cols rows : ℕ) (path : List Cell),
      IsHamiltonianPath cols rows path →
      ((path.map (hMirror cols)).length = path.length ∧
        ∀ c, c ∈ path.map (hMirror cols) ↔ inGridP cols rows c)) ∧
    (∀ (cols rows : ℕ) (path : List Cell),
      IsHamiltonianPath cols rows path →
      ((path.map (vMirror rows)).length = path.length ∧
        ∀ c, c ∈ path.map (vMirror rows) ↔ inGridP cols rows c)) ∧
    (∀ (cols rows : ℕ) (path : List Cell),
      IsHamiltonianPath cols rows path →
      (path.reverse.length = path.length ∧
        ∀ c, c ∈ path.reverse ↔ inGridP cols rows c)) := by
  refine ⟨?_, ?_, ?_, ?_, ?_⟩
  · intro cols rows path rot hpath hrot
    rcases hrot with h | h
    · refine map_closure hpath (fun c hc => ?_) (fun a b ha hb he => ?_)
      · rwa [rotatePoint_mod0 h]
      · rwa [rotatePoint_mod0 h, rotatePoint_mod0 h] at he
    · refine map_closure hpath (fun c hc => ?_) (fun a b ha hb he => ?_)
      · rw [rotatePoint_mod2 h]
        obtain ⟨h1, h2, h3, h4⟩ := hc
        exact ⟨by omega, by omega, by omega, by omega⟩
      · rw [rotatePoint_mod2 h, rotatePoint_mod2 h, Prod.mk.injEq] at he
        obtain ⟨e1, e2⟩ := he
        exact Prod.ext (by omega) (by omega)
  · intro n path rot hpath
    have h4 : rot % 4 = 0 ∨ rot % 4 = 1 ∨ rot % 4 = 2 ∨ rot % 4 = 3 := by omega
    rcases h4 with h | h | h | h
    · refine map_closure hpath (fun c hc => ?_) (fun a b ha hb he => ?_)
      · rwa [rotatePoint_mod0 h]
      · rwa [rotatePoint_mod0 h, rotatePoint_mod0 h] at he
    · refine map_closure hpath (fun c hc => ?_) (fun a b ha hb he => ?_)
      · rw [rotatePoint_mod1 h]
        obtain ⟨h1, h2, h3, h4⟩ := hc
        exact ⟨by omega, by omega, by omega, by omega⟩
      · rw [rotatePoint_mod1 h, rotatePoint_mod1 h, Prod.mk.injEq] at he
        obtain ⟨e1, e2⟩ := he
        exact Prod.ext (by omega) (by omega)
    · refine map_closure hpath (fun c hc => ?_) (fun a b ha hb he => ?_)
      · rw [rotatePoint_mod2 h]
        obtain ⟨h1, h2, h3, h4⟩ := hc
        exact ⟨by omega, by omega, by omega, by omega⟩
      · rw [rotatePoint_mod2 h, rotatePoint_mod2 h, Prod.mk.injEq] at he
        obtain ⟨e1, e2⟩ := he
        exact Prod.ext (by omega) (by omega)
    · refine map_closure hpath (fun c hc => ?_) (fun a b ha hb he => ?_)
      · rw [rotatePoint_mod3 h]
        obtain ⟨h1, h2, h3, h4⟩ := hc
        exact ⟨by omega, by omega, by omega, by omega⟩
      · rw [rotatePoint_mod3 h, rotatePoint_mod3 h, Prod.mk.injEq] at he
        obtain ⟨e1, e2⟩ := he
        exact Prod.ext (by omega) (by omega)
  · intro cols rows path hpath
    refine map_closure hpath (fun c hc => ?_) (fun a b ha hb he => ?_)
    · obtain ⟨h1, h2, h3, h4⟩ := hc
      exact ⟨by simp [hMirror]; omega, by simp [hMirror]; omega,
        by simp [hMirror]; omega, by simp [hMirror]; omega⟩
    · rw [hMirror, hMirror, Prod.mk.injEq] at he
      obtain ⟨e1, e2⟩ := he
      exact Prod.ext (by omega) (by omega)
  · intro cols rows path hpath
    refine map_closure hpath (fun c hc => ?_) (fun a b ha hb he => ?_)
    · obtain ⟨h1, h2, h3, h4⟩ := hc
      exact ⟨by simp [vMirror]; omega, by simp [vMirror]; omega,
        by simp [vMirror]; omega, by simp [vMirror]; omega⟩
    · rw [vMirror, vMirror, Prod.mk.injEq] at he
      obtain ⟨e1, e2⟩ := he
      exact Prod.ext (by omega) (by omega)
  · intro cols rows path hpath
    exact ⟨List.length_reverse path,
      fun c => by rw [List.mem_reverse]; exact hpath.2.2 c⟩

theorem transform_closure_witness :
    ((buildSnakePathBase 3 3).map (fun p => rotatePoint p 1 3 3)).length
      = (buildSnakePathBase 3 3).length ∧
    ∀ c, c ∈ (buildSnakePathBase 3 3).map (fun p => rotatePoint p 1 3 3) ↔
      inGridP 3 3 c :=
  transform_closure.2.1 3 (buildSnakePathBase 3 3) 1
    (isHamiltonianPath_of_check (by decide) (by decide) (by decide))

/-- C8 counterexample: on the non-square 2×3 grid, the 90° rotation maps the
Hamiltonian serpentine path off the grid — the rotated path contains the
cell (2,1), which is outside the 2×3 grid, so the rotated cell set is not
the grid's. -/
theorem transform_closure_counterexample :
    IsHamiltonianPath 2 3 (buildSnakePathBase 2 3) ∧
    ((2 : ℤ), (1 : ℤ)) ∈ (buildSnakePathBase 2 3).map (fun p => rotatePoint p 1 2 3) ∧
    ¬ inGridP 2 3 ((2 : ℤ), (1 : ℤ)) := by
  exact ⟨isHamiltonianPath_of_check (by decide) (by decide) (by decide),
    by decide, by decide⟩

/-- The serpentine-order completion a generator appends when cells are
missing: `for (p of base) if (!path.some(q => q == p)) path.push(p)`. -/
def fillMissing (path : List Cell) (cols rows : ℕ) : List Cell :=
  (buildSnakePathBase cols rows).foldl
    (fun acc p => if p ∈ acc then acc else acc ++ [p]) path

/-- `buildBlockSnakePath(cols, rows)`: 2-row bands traversed serpentine. -/
def buildBlockSnakePath (cols rows : ℕ) : List Cell :=
  (List.range ((rows + 1) / 2)).flatMap (fun (b : ℕ) =>
    (if b % 2 = 0 then List.range cols else (List.range cols).reverse).flatMap
      (fun (x : ℕ) =>
        ((x : ℤ), (↑(2 * b) : ℤ)) ::
          (if min (2 * b + 1) (rows - 1) ≠ 2 * b then
            [((x : ℤ), (↑(min (2 * b + 1) (rows - 1)) : ℤ))]
          else [])))

/-- The block scan of `buildCheckerboard2x2Path` before the fill: 2×2
blocks in checkerboard order, each traversed as a 2-wide serpentine. -/
def checker2Core (cols rows : ℕ) : List Cell :=
  (List.range ((rows + 1) / 2)).flatMap (fun blockRow =>
    (if blockRow % 2 = 1 then ((List.range ((cols + 1) / 2)).map (fun i => 2 * i)).reverse
      else (List.range ((cols + 1) / 2)).map (fun i => 2 * i)).flatMap (fun (bx : ℕ) =>
      (if (bx / 2 + blockRow) % 2 = 0 then
          List.range' (2 * blockRow) (min (2 * blockRow + 1) (rows - 1) + 1 - 2 * blockRow)
        else (List.range' (2 * blockRow)
          (min (2 * blockRow + 1) (rows - 1) + 1 - 2 * blockRow)).reverse).flatMap
        (fun (y : ℕ) =>
          [((bx : ℤ), (y : ℤ)), ((↑(min (bx + 1) (cols - 1)) : ℤ), (y : ℤ))])))

/-- `buildCheckerboard2x2Path(cols, rows)`: the block scan, then the
serpentine fill when cells are missing. -/
def buildCheckerboard2x2Path (cols rows : ℕ) : List Cell :=
  if (checker2Core cols rows).length = cols * rows then checker2Core cols rows
  else fillMissing (checker2Core cols rows) cols rows

theorem mem_xs_iff {cols b : ℕ} (x : ℕ) :
    x ∈ (if b % 2 = 0 then List.range cols else (List.range cols).reverse) ↔ x < cols := by
  by_cases hb : b % 2 = 0 <;> simp [hb]

theorem mem_buildBlockSnakePath {cols rows : ℕ} {c : Cell} :
    c ∈ buildBlockSnakePath cols rows ↔ inGridP cols rows c := by
  obtain ⟨cx, cy⟩ := c
  rw [buildBlockSnakePath]
  simp only [List.mem_flatMap, List.mem_range, List.mem_cons]
  constructor
  · rintro ⟨b, hb, x, hx, hc⟩
    rw [mem_xs_iff] at hx
    have hrows1 : 1 ≤ rows := by omega
    have htop : 2 * b < rows := by omega
    rcases hc with hc | hc
    · injection hc with e1 e2
      exact ⟨by omega, by omega, by omega, by omega⟩
    · by_cases hne : min (2 * b + 1) (rows - 1) ≠ 2 * b
      · rw [if_pos hne, List.mem_singleton] at hc
        injection hc with e1 e2
        have hbot : min (2 * b + 1) (rows - 1) < rows := by omega
        exact ⟨by omega, by omega, by omega, by omega⟩
      · rw [if_neg hne] at hc
        exact absurd hc (List.not_mem_nil _)
  · rintro ⟨h1, h2, h3, h4⟩
    refine ⟨cy.toNat / 2, by omega, cx.toNat, (mem_xs_iff cx.toNat).mpr (by omega), ?_⟩
    by_cases hy : cy.toNat = 2 * (cy.toNat / 2)
    · left
      rw [Prod.mk.injEq]
      constructor <;> omega
    · right
      have hcond : min (2 * (cy.toNat / 2) + 1) (rows - 1) ≠ 2 * (cy.toNat / 2) := by
        omega
      rw [if_pos hcond, List.mem_singleton, Prod.mk.injEq]
      constructor <;> omega

theorem isHamiltonian_of_nodup_mem {cols rows : ℕ} {path : List Cell}
    (hnd : path.Nodup) (hmem : ∀ c : Cell, c ∈ path ↔ inGridP cols rows c) :
    IsHamiltonianPath cols rows path := by
  refine ⟨?_, hnd, hmem⟩
  have hf : path.toFinset = gridCells cols rows :=
    Finset.ext (fun c => by rw [List.mem_toFinset, hmem c, mem_gridCells])
  rw [← List.toFinset_card_of_nodup hnd, hf, card_gridCells]

theorem nodup_buildBlockSnakePath (cols rows : ℕ) :
    (buildBlockSnakePath cols rows).Nodup := by
  rw [buildBlockSnakePath, List.nodup_flatMap]
  constructor
  · intro b hb
    rw [List.mem_range] at hb
    rw [List.nodup_flatMap]
    constructor
    · intro x hx
      by_cases hcond : min (2 * b + 1) (rows - 1) ≠ 2 * b
      · rw [if_pos hcond]
        simp only [List.nodup_cons, List.mem_singleton, List.not_mem_nil, not_false_iff,
          List.nodup_nil, and_true]
        intro heq
        rw [Prod.mk.injEq] at heq
        omega
      · rw [if_neg hcond]
        simp
    · have hxsnd : (if b % 2 = 0 then List.range cols
          else (List.range cols).reverse).Nodup := by
        by_cases hb2 : b % 2 = 0 <;> simp [hb2, List.nodup_range]
      refine List.Pairwise.imp ?_ hxsnd
      intro x1 x2 hne a ha1 ha2
      have e1 : a.1 = (x1 : ℤ) := by
        rcases List.mem_cons.mp ha1 with rfl | h
        · rfl
        · by_cases hcond : min (2 * b + 1) (rows - 1) ≠ 2 * b
          · rw [if_pos hcond, List.mem_singleton] at h
            rw [h]
          · rw [if_neg hcond] at h
            exact absurd h (List.not_mem_nil _)
      have e2 : a.1 = (x2 : ℤ) := by
        rcases List.mem_cons.mp ha2 with rfl | h
        · rfl
        · by_cases hcond : min (2 * b + 1) (rows - 1) ≠ 2 * b
          · rw [if_pos hcond, List.mem_singleton] at h
            rw [h]
          · rw [if_neg hcond] at h
            exact absurd h (List.not_mem_nil _)
      apply hne
      have e3 : (x1 : ℤ) = (x2 : ℤ) := by rw [← e1, ← e2]
      exact_mod_cast e3
  · refine List.Pairwise.imp_of_mem ?_ (List.nodup_range ((rows + 1) / 2))
    intro b1 b2 hb1 hb2 hne a ha1 ha2
    rw [List.mem_range] at hb1 hb2
    rw [List.mem_flatMap] at ha1 ha2
    obtain ⟨x1, hx1, hm1⟩ := ha1
    obtain ⟨x2, hx2, hm2⟩ := ha2
    have e1 : ∃ m : ℕ, a.2 = (m : ℤ) ∧ 2 * b1 ≤ m ∧ m ≤ 2 * b1 + 1 := by
      rcases List.mem_cons.mp hm1 with rfl | h
      · exact ⟨2 * b1, rfl, le_refl _, by omega⟩
      · by_cases hcond : min (2 * b1 + 1) (rows - 1) ≠ 2 * b1
        · rw [if_pos hcond, List.mem_singleton] at h
          subst h
          exact ⟨min (2 * b1 + 1) (rows - 1), rfl, by omega, by omega⟩
        · rw [if_neg hcond] at h
          exact absurd h (List.not_mem_nil _)
    have e2 : ∃ m : ℕ, a.2 = (m : ℤ) ∧ 2 * b2 ≤ m ∧ m ≤ 2 * b2 + 1 := by
      rcases List.mem_cons.mp hm2 with rfl | h
      · exact ⟨2 * b2, rfl, le_refl _, by omega⟩
      · by_cases hcond : min (2 * b2 + 1) (rows - 1) ≠ 2 * b2
        · rw [if_pos hcond, List.mem_singleton] at h
          subst h
          exact ⟨min (2 * b2 + 1) (rows - 1), rfl, by omega, by omega⟩
        · rw [if_neg hcond] at h
          exact absurd h (List.not_mem_nil _)
    obtain ⟨m1, f1, f2, f3⟩ := e1
    obtain ⟨m2, g1, g2, g3⟩ := e2
    apply hne
    rw [f1] at g1
    have : m1 = m2 := by exact_mod_cast g1
    omega

theorem mem_ite_reverse {α : Type} {c : Prop} [Decidable c] {l : List α} {a : α} :
    a ∈ (if c then l else l.reverse) ↔ a ∈ l := by
  by_cases h : c <;> simp [h]

theorem mem_ite_reverse_left {α : Type} {c : Prop} [Decidable c] {l : List α} {a : α} :
    a ∈ (if c then l.reverse else l) ↔ a ∈ l := by
  by_cases h : c <;> simp [h]

theorem nodup_ite_reverse {α : Type} {c : Prop} [Decidable c] {l : List α}
    (h : l.Nodup) : (if c then l else l.reverse).Nodup := by
  by_cases hc : c <;> simp [hc, h]

theorem nodup_ite_reverse_left {α : Type} {c : Prop} [Decidable c] {l : List α}
    (h : l.Nodup) : (if c then l.reverse else l).Nodup := by
  by_cases hc : c <;> simp [hc, h]

theorem mem_blockCols_iff {cols blockRow : ℕ} (bx : ℕ) :
    bx ∈ (if blockRow % 2 = 1 then
        ((List.range ((cols + 1) / 2)).map (fun i => 2 * i)).reverse
      else (List.range ((cols + 1) / 2)).map (fun i => 2 * i)) ↔
      ∃ i, i < (cols + 1) / 2 ∧ bx = 2 * i := by
  rw [mem_ite_reverse_left]
  simp only [List.mem_map, List.mem_range]
  constructor
  · rintro ⟨i, hi, rfl⟩
    exact ⟨i, hi, rfl⟩
  · rintro ⟨i, hi, rfl⟩
    exact ⟨i, hi, rfl⟩

theorem mem_ys_iff {rows blockRow : ℕ} {c : Prop} [Decidable c] (y : ℕ) :
    y ∈ (if c then
        List.range' (2 * blockRow) (min (2 * blockRow + 1) (rows - 1) + 1 - 2 * blockRow)
      else (List.range' (2 * blockRow)
        (min (2 * blockRow + 1) (rows - 1) + 1 - 2 * blockRow)).reverse) ↔
      2 * blockRow ≤ y ∧ y ≤ min (2 * blockRow + 1) (rows - 1) := by
  rw [mem_ite_reverse]
  rw [List.mem_range']
  constructor
  · rintro ⟨i, hi, rfl⟩
    omega
  · rintro ⟨h1, h2⟩
    exact ⟨y - 2 * blockRow, by omega, by omega⟩

theorem mem_checker2Core {cols rows : ℕ} (hcols : cols % 2 = 0) {c : Cell} :
    c ∈ checker2Core cols rows ↔ inGridP cols rows c := by
  obtain ⟨cx, cy⟩ := c
  rw [checker2Core]
  simp only [List.mem_flatMap, List.mem_range]
  constructor
  · rintro ⟨br, hbr, bx, hbx, y, hy, hc⟩
    rw [mem_blockCols_iff] at hbx
    obtain ⟨i, hi, rfl⟩ := hbx
    rw [mem_ys_iff] at hy
    have hrows1 : 1 ≤ rows := by omega
    have hcol2 : 2 * i + 1 ≤ cols - 1 := by omega
    rcases List.mem_cons.mp hc with h | h
    · injection h with e1 e2
      exact ⟨by omega, by omega, by omega, by omega⟩
    · rw [List.mem_singleton] at h
      injection h with e1 e2
      exact ⟨by omega, by omega, by omega, by omega⟩
  · rintro ⟨h1, h2, h3, h4⟩
    refine ⟨cy.toNat / 2, by omega, 2 * (cx.toNat / 2), ?_, cy.toNat, ?_, ?_⟩
    · rw [mem_blockCols_iff]
      exact ⟨cx.toNat / 2, by omega, rfl⟩
    · rw [mem_ys_iff]
      omega
    · have hmin : min (2 * (cx.toNat / 2) + 1) (cols - 1) = 2 * (cx.toNat / 2) + 1 := by
        omega
      rw [hmin]
      simp only [List.mem_cons, List.not_mem_nil, or_false, List.mem_singleton]
      by_cases hx : cx.toNat = 2 * (cx.toNat / 2)
      · left
        rw [Prod.mk.injEq]
        constructor <;> omega
      · right
        rw [Prod.mk.injEq]
        constructor <;> omega

theorem checker2_pair_mem {cols : ℕ} {bx y : ℕ} {a : Cell}
    (ha : a ∈ [((bx : ℤ), (y : ℤ)), ((↑(min (bx + 1) (cols - 1)) : ℤ), (y : ℤ))]) :
    a.2 = (y : ℤ) ∧ (a.1 = (bx : ℤ) ∨ a.1 = (↑(min (bx + 1) (cols - 1)) : ℤ)) := by
  rcases List.mem_cons.mp ha with rfl | h
  · exact ⟨rfl, Or.inl rfl⟩
  · rw [List.mem_singleton] at h
    subst h
    exact ⟨rfl, Or.inr rfl⟩

theorem checker2_row_mem {cols rows blockRow : ℕ} {a : Cell}
    (ha : a ∈ (if blockRow % 2 = 1 then
        ((List.range ((cols + 1) / 2)).map (fun i => 2 * i)).reverse
      else (List.range ((cols + 1) / 2)).map (fun i => 2 * i)).flatMap (fun (bx : ℕ) =>
      (if (bx / 2 + blockRow) % 2 = 0 then
          List.range' (2 * blockRow) (min (2 * blockRow + 1) (rows - 1) + 1 - 2 * blockRow)
        else (List.range' (2 * blockRow)
          (min (2 * blockRow + 1) (rows - 1) + 1 - 2 * blockRow)).reverse).flatMap
        (fun (y : ℕ) =>
          [((bx : ℤ), (y : ℤ)), ((↑(min (bx + 1) (cols - 1)) : ℤ), (y : ℤ))]))) :
    ∃ m : ℕ, a.2 = (m : ℤ) ∧ 2 * blockRow ≤ m ∧ m ≤ 2 * blockRow + 1 := by
  rw [List.mem_flatMap] at ha
  obtain ⟨bx, _, ha⟩ := ha
  rw [List.mem_flatMap] at ha
  obtain ⟨y, hy, ha⟩ := ha
  rw [mem_ys_iff] at hy
  exact ⟨y, (checker2_pair_mem ha).1, by omega, by omega⟩

theorem nodup_checker2Core {cols rows : ℕ} (hcols : cols % 2 = 0) :
    (checker2Core cols rows).Nodup := by
  rw [checker2Core, List.nodup_flatMap]
  constructor
  · intro br hbr
    rw [List.mem_range] at hbr
    rw [List.nodup_flatMap]
    constructor
    · intro bx hbx
      rw [mem_blockCols_iff] at hbx
      obtain ⟨i, hi, rfl⟩ := hbx
      have hmin : min (2 * i + 1) (cols - 1) = 2 * i + 1 := by omega
      rw [List.nodup_flatMap]
      constructor
      · intro y hy
        rw [hmin]
        simp only [List.nodup_cons, List.mem_singleton, List.not_mem_nil, not_false_iff,
          List.nodup_nil, and_true]
        intro heq
        rw [Prod.mk.injEq] at heq
        omega
      · refine List.Pairwise.imp ?_
          (nodup_ite_reverse (List.nodup_range' _ _))
        intro y1 y2 hne a ha1 ha2
        have e1 := (checker2_pair_mem ha1).1
        have e2 := (checker2_pair_mem ha2).1
        apply hne
        rw [e1] at e2
        exact_mod_cast e2
    · have hndbc : (if br % 2 = 1 then
          ((List.range ((cols + 1) / 2)).map (fun i => 2 * i)).reverse
        else (List.range ((cols + 1) / 2)).map (fun i => 2 * i)).Nodup :=
        nodup_ite_reverse_left
          ((List.nodup_range _).map_on (fun i1 _ i2 _ h => by omega))
      refine List.Pairwise.imp_of_mem ?_ hndbc
      intro bx1 bx2 hm1 hm2 hne a ha1 ha2
      rw [mem_blockCols_iff] at hm1 hm2
      obtain ⟨i1, hi1, rfl⟩ := hm1
      obtain ⟨i2, hi2, rfl⟩ := hm2
      have hmin1 : min (2 * i1 + 1) (cols - 1) = 2 * i1 + 1 := by omega
      have hmin2 : min (2 * i2 + 1) (cols - 1) = 2 * i2 + 1 := by omega
      rw [List.mem_flatMap] at ha1 ha2
      obtain ⟨y1, _, ha1⟩ := ha1
      obtain ⟨y2, _, ha2⟩ := ha2
      have e1 := (checker2_pair_mem ha1).2
      have e2 := (checker2_pair_mem ha2).2
      rw [hmin1] at e1
      rw [hmin2] at e2
      apply hne
      have : i1 = i2 := by
        rcases e1 with e1 | e1 <;> rcases e2 with e2 | e2 <;>
          rw [e1] at e2 <;> omega
      rw [this]
  · refine List.Pairwise.imp_of_mem ?_ (List.nodup_range ((rows + 1) / 2))
    intro b1 b2 _ _ hne a ha1 ha2
    obtain ⟨m1, f1, f2, f3⟩ := checker2_row_mem ha1
    obtain ⟨m2, g1, g2, g3⟩ := checker2_row_mem ha2
    apply hne
    rw [f1] at g1
    have : m1 = m2 := by exact_mod_cast g1
    omega

theorem checker2Core_hamiltonian {cols rows : ℕ} (hcols : cols % 2 = 0) :
    IsHamiltonianPath cols rows (checker2Core cols rows) :=
  isHamiltonian_of_nodup_mem (nodup_checker2Core hcols)
    (fun _ => mem_checker2Core hcols)

/-- C3 (amended): `buildBlockSnakePath` satisfies the Hamiltonian invariant
for every grid size, and `buildCheckerboard2x2Path` satisfies it whenever
`cols` is even (its block scan then already covers each cell once, so the
serpentine fill is skipped); on odd `cols` the clamped last column is pushed
twice per row and the invariant fails — see the counterexample. -/
theorem block_checker2_hamiltonian :
    (∀ cols rows : ℕ, IsHamiltonianPath cols rows (buildBlockSnakePath cols rows)) ∧
    (∀ cols rows : ℕ, cols % 2 = 0 →
      IsHamiltonianPath cols rows (buildCheckerboard2x2Path cols rows)) := by
  constructor
  · intro cols rows
    exact isHamiltonian_of_nodup_mem (nodup_buildBlockSnakePath cols rows)
      (fun _ => mem_buildBlockSnakePath)
  · intro cols rows hcols
    have hcore : IsHamiltonianPath cols rows (checker2Core cols rows) :=
      checker2Core_hamiltonian hcols
    rw [buildCheckerboard2x2Path, if_pos hcore.1]
    exact hcore

theorem block_checker2_hamiltonian_witness :
    IsHamiltonianPath 6 6 (buildBlockSnakePath 6 6) ∧
    IsHamiltonianPath 6 6 (buildCheckerboard2x2Path 6 6) :=
  ⟨block_checker2_hamiltonian.1 6 6, block_checker2_hamiltonian.2 6 6 rfl⟩

/-- C3 counterexample: on the supported odd-width grid 3×2 the 2×2
checkerboard generator returns a path of length 8 ≠ 3*2 containing
duplicate cells — the clamped third column is emitted twice per row and the
fill does not remove duplicates. -/
theorem checker2_counterexample :
    (buildCheckerboard2x2Path 3 2).length = 8 ∧
    3 * 2 = 6 ∧
    ¬ (buildCheckerboard2x2Path 3 2).Nodup := by
  refine ⟨by decide, rfl, by decide⟩

/-- The inclusive integer range `lo..hi` (empty when `hi < lo`), used to
model JS `for` loops over possibly-negative bounds. -/
def intRange (lo hi : ℤ) : List ℤ :=
  (List.range (hi + 1 - lo).toNat).map (fun i => lo + i)

/-- `buildSpiralSnakePath`: the boundary-shrinking while loop; the fuel only
pads the loop, which shrinks `left`/`right` each round. -/
def spiralLoop (fuel : ℕ) (left top right bottom : ℤ) (acc : List Cell) : List Cell :=
  match fuel with
  | 0 => acc
  | fuel + 1 =>
    if left ≤ right ∧ top ≤ bottom then
      let acc := acc ++ (intRange left right).map (fun x => (x, top))
      let acc := acc ++ (intRange (top + 1) bottom).map (fun y => (right, y))
      let acc := acc ++ (if top < bottom then
        ((intRange left (right - 1)).reverse).map (fun x => (x, bottom)) else [])
      let acc := acc ++ (if left < right then
        ((intRange (top + 1) (bottom - 1)).reverse).map (fun y => (left, y)) else [])
      spiralLoop fuel (left + 1) (top + 1) (right - 1) (bottom - 1) acc
    else acc

def buildSpiralSnakePath (cols rows : ℕ) : List Cell :=
  spiralLoop (cols + rows + 1) 0 0 ((cols : ℤ) - 1) ((rows : ℤ) - 1) []

/-- `buildColumnSnakePath`. -/
def buildColumnSnakePath (cols rows : ℕ) : List Cell :=
  (List.range cols).flatMap (fun (x : ℕ) =>
    if x % 2 = 0 then (List.range rows).map (fun (y : ℕ) => ((x : ℤ), (y : ℤ)))
    else ((List.range rows).reverse).map (fun (y : ℕ) => ((x : ℤ), (y : ℤ))))

/-- `buildDiagonalSnakePath`: anti-diagonals, every other one reversed. -/
def buildDiagonalSnakePath (cols rows : ℕ) : List Cell :=
  (intRange 0 ((cols : ℤ) + (rows : ℤ) - 2)).flatMap (fun s =>
    let diag := (intRange (max 0 (s - ((rows : ℤ) - 1))) (min ((cols : ℤ) - 1) s)).map
      (fun x => (x, s - x))
    if s % 2 = 0 then diag.reverse else diag)

/-- One arm of `buildCenterSpiralPath`: `len` cursor steps in direction `d`,
pushing only in-bounds unvisited cells, stopping growth once full. -/
def centerArm (cols rows total : ℕ) (d : ℤ × ℤ) (len : ℕ)
    (st : (ℤ × ℤ) × Finset Cell × List Cell) : (ℤ × ℤ) × Finset Cell × List Cell :=
  (List.range len).foldl (fun st _ =>
    if total ≤ st.2.2.length then st
    else
      let x := st.1.1 + d.1
      let y := st.1.2 + d.2
      if 0 ≤ x ∧ 0 ≤ y ∧ x < (cols : ℤ) ∧ y < (rows : ℤ) ∧ (x, y) ∉ st.2.1 then
        ((x, y), insert (x, y) st.2.1, st.2.2 ++ [(x, y)])
      else ((x, y), st.2.1, st.2.2)) st

/-- The `while (path.length < total)` loop of `buildCenterSpiralPath`; each
round sweeps the four directions, lengthening every second arm.  The fuel
exceeds the rounds any real grid needs; a too-small fuel only defers to the
serpentine fill, as a stuck JS loop cannot happen. -/
def centerLoop (cols rows total : ℕ) :
    ℕ → ℕ → (ℤ × ℤ) × Finset Cell × List Cell → List Cell
  | 0, _, st => st.2.2
  | fuel + 1, len, st =>
    if st.2.2.length < total then
      let st := centerArm cols rows total (1, 0) len st
      let st := centerArm cols rows total (0, 1) (if st.2.2.length < total then len else 0) st
      let len2 := len + 1
      let st := centerArm cols rows total (-1, 0) (if st.2.2.length < total then len2 else 0) st
      let st := centerArm cols rows total (0, -1) (if st.2.2.length < total then len2 else 0) st
      centerLoop cols rows total fuel (len2 + 1) st
    else st.2.2

def buildCenterSpiralPath (cols rows : ℕ) : List Cell :=
  let total := cols * rows
  let x : ℤ := ((cols : ℤ) - 1).fdiv 2
  let y : ℤ := ((rows : ℤ) - 1).fdiv 2
  let path := centerLoop cols rows total (2 * total + 4) 1 ((x, y), {(x, y)}, [(x, y)])
  if path.length = total then path else fillMissing path cols rows

/-- One boundary ring of `buildRingsPath` (empty when the guard fails). -/
def ringCells (cols rows layer : ℕ) : List Cell :=
  let left : ℤ := layer
  let top : ℤ := layer
  let right : ℤ := (cols : ℤ) - 1 - layer
  let bottom : ℤ := (rows : ℤ) - 1 - layer
  if top ≤ bottom ∧ left ≤ right then
    (intRange left right).map (fun x => (x, top)) ++
      (intRange (top + 1) bottom).map (fun y => (right, y)) ++
      (if top < bottom then ((intRange left (right - 1)).reverse).map (fun x => (x, bottom))
        else []) ++
      (if left < right then
        ((intRange (top + 1) (bottom - 1)).reverse).map (fun y => (left, y)) else [])
  else []

/-- The ring-stitching step shared by `buildRingsPath` and
`buildPerimeterFirstPath`: rotate the ring to start adjacent to the path's
last cell, reversing it first if needed. -/
def stitchRing (path ring : List Cell) : List Cell :=
  if ring.isEmpty then path
  else if path.isEmpty then path ++ ring
  else
    let last := (path.getLast?).getD ((0 : ℤ), (0 : ℤ))
    match ring.findIdx? (fun p =>
        ((p.1 - last.1).natAbs + (p.2 - last.2).natAbs) == 1) with
    | some idx => path ++ (ring.drop idx ++ ring.take idx)
    | none =>
      match ring.reverse.findIdx? (fun p =>
          ((p.1 - last.1).natAbs + (p.2 - last.2).natAbs) == 1) with
      | some idx => path ++ (ring.reverse.drop idx ++ ring.reverse.take idx)
      | none => path ++ ring.reverse

def buildRingsPath (cols rows : ℕ) : List Cell :=
  let path := (List.range ((min cols rows + 1) / 2)).foldl
    (fun path layer => stitchRing path (ringCells cols rows layer)) []
  if path.length = cols * rows then path else fillMissing path cols rows

/-- One ring of `buildPerimeterFirstPath` (no emptiness guard in the JS). -/
def perimeterRing (cols rows layer : ℕ) : List Cell :=
  let left : ℤ := layer
  let top : ℤ := layer
  let right : ℤ := (cols : ℤ) - 1 - layer
  let bottom : ℤ := (rows : ℤ) - 1 - layer
  (intRange left right).map (fun x => (x, top)) ++
    (intRange (top + 1) bottom).map (fun y => (right, y)) ++
    (if top < bottom then ((intRange left (right - 1)).reverse).map (fun x => (x, bottom))
      else []) ++
    (if left < right then
      ((intRange (top + 1) (bottom - 1)).reverse).map (fun y => (left, y)) else [])

def buildPerimeterFirstPath (cols rows : ℕ) : List Cell :=
  let path := (List.range ((min cols rows + 1) / 2)).foldl
    (fun path layer => stitchRing path (perimeterRing cols rows layer)) []
  if path.length = cols * rows then path else fillMissing path cols rows

/-- `buildTileSnakePath`: 2×2 tiles, rows of tiles alternating direction.
(The JS condition `ys[0] !== ys[0]` on the second push is always false.) -/
def buildTileSnakePath (cols rows : ℕ) : List Cell :=
  let path := (List.range ((rows + 1) / 2)).flatMap (fun (tb : ℕ) =>
    let tiles := (List.range ((cols + 1) / 2)).map (fun (ti : ℕ) =>
      let tx := 2 * ti
      let ty := 2 * tb
      let x1 := min (tx + 1) (cols - 1)
      let y1 := min (ty + 1) (rows - 1)
      ((tx : ℤ), (ty : ℤ)) ::
        ((if x1 ≠ tx then [((x1 : ℤ), (ty : ℤ))] else []) ++
          (if y1 ≠ ty then [((x1 : ℤ), (y1 : ℤ))] else []) ++
          (if x1 ≠ tx then [((tx : ℤ), (y1 : ℤ))] else [])))
    (if tb % 2 = 1 then tiles.reverse else tiles).flatMap id)
  if path.length = cols * rows then path else fillMissing path cols rows

/-- `buildCheckerboardPath`: 2-column stripes alternating vertical
direction. -/
def buildCheckerboardPath (cols rows : ℕ) : List Cell :=
  let path := (List.range ((cols + 1) / 2)).flatMap (fun (st : ℕ) =>
    let left := 2 * st
    let right := min (2 * st + 1) (cols - 1)
    (if st % 2 = 0 then List.range rows else (List.range rows).reverse).flatMap
      (fun (y : ℕ) =>
        ((left : ℤ), (y : ℤ)) :: (if right ≠ left then [((right : ℤ), (y : ℤ))] else [])))
  if path.length = cols * rows then path else fillMissing path cols rows

/-- One arm of `buildCornerSpiralPath`: `stepLen` steps in direction `d` with
the nearest-unvisited-neighbor fallback; the Bool records the inner `break`
when no fallback neighbor exists. -/
def cornerArm (cols rows total : ℕ) (d : ℤ × ℤ) (stepLen : ℕ)
    (st : (ℤ × ℤ) × Finset Cell × List Cell) : (ℤ × ℤ) × Finset Cell × List Cell :=
  ((List.range stepLen).foldl (fun acc _ =>
    if acc.2 then acc
    else
      let st := acc.1
      if total ≤ st.2.2.length then acc
      else
        let nx := st.1.1 + d.1
        let ny := st.1.2 + d.2
        if nx < 0 ∨ ny < 0 ∨ (cols : ℤ) ≤ nx ∨ (rows : ℤ) ≤ ny ∨ (nx, ny) ∈ st.2.1 then
          match [((1 : ℤ), (0 : ℤ)), (-1, 0), (0, 1), (0, -1)].find? (fun f =>
              decide (0 ≤ st.1.1 + f.1 ∧ 0 ≤ st.1.2 + f.2 ∧ st.1.1 + f.1 < (cols : ℤ) ∧
                st.1.2 + f.2 < (rows : ℤ) ∧ (st.1.1 + f.1, st.1.2 + f.2) ∉ st.2.1)) with
          | some f =>
            (((st.1.1 + f.1, st.1.2 + f.2), insert (st.1.1 + f.1, st.1.2 + f.2) st.2.1,
              st.2.2 ++ [(st.1.1 + f.1, st.1.2 + f.2)]), false)
          | none => (st, true)
        else (((nx, ny), insert (nx, ny) st.2.1, st.2.2 ++ [(nx, ny)]), false))
    (st, false)).1

/-- The outer while loop of `buildCornerSpiralPath`: two arms per round with
the direction index advancing, then the stuck-safety break (the path never
holds duplicates, so it fires whenever the path is still incomplete). -/
def cornerLoop (cols rows total : ℕ) :
    ℕ → ℕ → ℕ → (ℤ × ℤ) × Finset Cell × List Cell → List Cell
  | 0, _, _, st => st.2.2
  | fuel + 1, stepLen, dirIdx, st =>
    if st.2.2.length < total then
      let dirsC : List (ℤ × ℤ) := [(1, 0), (0, 1), (-1, 0), (0, -1)]
      let st := cornerArm cols rows total (dirsC.getD (dirIdx % 4) (0, 0)) stepLen st
      let st := if st.2.2.length < total then
        cornerArm cols rows total (dirsC.getD ((dirIdx + 1) % 4) (0, 0)) stepLen st else st
      if st.2.2.length < total ∧ st.2.2.length = st.2.2.toFinset.card then st.2.2
      else cornerLoop cols rows total fuel (stepLen + 1) (dirIdx + 2) st
    else st.2.2

def buildCornerSpiralPath (cols rows : ℕ) : List Cell :=
  let total := cols * rows
  let path := cornerLoop cols rows total (total + 2) 1 0 ((0, 0), {((0 : ℤ), (0 : ℤ))},
    [((0 : ℤ), (0 : ℤ))])
  if path.length = total then path else fillMissing path cols rows

/-- `buildSpokesPath`: columns ordered center-out (0, +1, -1, ...), clamped
and deduplicated, each traversed alternately downward/upward. -/
def buildSpokesPath (cols rows : ℕ) : List Cell :=
  let cx : ℤ := ((cols : ℤ) - 1).fdiv 2
  let colsOrder := (List.range cols).foldl (fun (ord : List ℤ) d =>
    let pos : ℤ :=
      if d = 0 then cx
      else if d % 2 = 1 then cx + ((d + 1) / 2 : ℕ)
      else cx - ((d / 2 : ℕ) : ℤ)
    let pos := if pos < 0 then 0 else pos
    let pos := if (cols : ℤ) ≤ pos then (cols : ℤ) - 1 else pos
    if pos ∈ ord then ord else ord ++ [pos]) []
  let path := colsOrder.enum.flatMap (fun ic =>
    if ic.1 % 2 = 0 then (List.range rows).map (fun (y : ℕ) => (ic.2, (y : ℤ)))
    else ((List.range rows).reverse).map (fun (y : ℕ) => (ic.2, (y : ℤ))))
  if path.length = cols * rows then path else fillMissing path cols rows

/-- `buildDiagonalStripesPath`: anti-diagonals in groups of two, the group's
direction set by the group index. -/
def buildDiagonalStripesPath (cols rows : ℕ) : List Cell :=
  let path := (List.range ((cols + rows) / 2)).flatMap (fun (k : ℕ) =>
    ((List.range 2).filter (fun (kk : ℕ) =>
        decide ((2 * (k : ℤ) + (kk : ℤ)) ≤ (cols : ℤ) + rows - 2))).flatMap
      (fun (kk : ℕ) =>
        let ss : ℤ := 2 * k + kk
        let diag := (intRange (max 0 (ss - ((rows : ℤ) - 1))) (min ((cols : ℤ) - 1) ss)).map
          (fun x => (x, ss - x))
        if k % 2 = 0 then diag.reverse else diag))
  if path.length = cols * rows then path else fillMissing path cols rows

/-- `bresenhamLine` body; the fuel is exactly the number of cells the line
emits, `|dx| + |dy| + 1`. -/
def bresenhamAux (x1 y1 sx sy dx dy : ℤ) : ℕ → ℤ → ℤ → ℤ → List Cell
  | 0, _, _, _ => []
  | fuel + 1, x0, y0, err =>
    (x0, y0) ::
      (if x0 = x1 ∧ y0 = y1 then []
       else
        let e2 := 2 * err
        let err2 := if dy ≤ e2 then err + dy else err
        let x0' := if dy ≤ e2 then x0 + sx else x0
        let err3 := if e2 ≤ dx then err2 + dx else err2
        let y0' := if e2 ≤ dx then y0 + sy else y0
        bresenhamAux x1 y1 sx sy dx dy fuel x0' y0' err3)

def bresenhamLine (x0 y0 x1 y1 : ℤ) : List Cell :=
  let dx : ℤ := (x1 - x0).natAbs
  let dy : ℤ := -((y1 - y0).natAbs : ℤ)
  bresenhamAux x1 y1 (if x0 < x1 then 1 else -1) (if y0 < y1 then 1 else -1) dx dy
    ((x1 - x0).natAbs + (y1 - y0).natAbs + 1) x0 y0 (dx + dy)

/-- `buildTrueSpokesPath`: Bresenham spokes from the rounded centre to each
border cell, keeping first occurrences.  `Math.round((cols-1)/2)` equals
`cols / 2` on naturals. -/
def buildTrueSpokesPath (cols rows : ℕ) : List Cell :=
  let targets : List Cell :=
    (List.range cols).map (fun (x : ℕ) => ((x : ℤ), (0 : ℤ))) ++
      (List.range' 1 (rows - 1)).map (fun (y : ℕ) => ((cols : ℤ) - 1, (y : ℤ))) ++
      ((List.range (cols - 1)).reverse).map (fun (x : ℕ) => ((x : ℤ), (rows : ℤ) - 1)) ++
      ((List.range' 1 (rows - 2)).reverse).map (fun (y : ℕ) => ((0 : ℤ), (y : ℤ)))
  let acc := targets.foldl (fun (acc : Finset Cell × List Cell) t =>
    (bresenhamLine ((cols / 2 : ℕ) : ℤ) ((rows / 2 : ℕ) : ℤ) t.1 t.2).foldl
      (fun acc p => if p ∈ acc.1 then acc else (insert p acc.1, acc.2 ++ [p])) acc) (∅, [])
  let path := acc.2
  if path.length = cols * rows then path else fillMissing path cols rows

/-- The recursive slab split of `buildHilbertLikePath`; each split shrinks
`w + h`, so fuel `cols + rows + 1` never runs out on grids the JS
terminates on. -/
def hilbertRec : ℕ → ℤ → ℤ → ℕ → ℕ → List Cell
  | 0, _, _, _, _ => []
  | fuel + 1, x0, y0, w, h =>
    if w = 1 then (List.range h).map (fun (i : ℕ) => (x0, y0 + i))
    else if h = 1 then (List.range w).map (fun (i : ℕ) => (x0 + i, y0))
    else if h ≤ w then
      let w1 := w / 2
      let left := hilbertRec fuel x0 y0 w1 h
      let right := hilbertRec fuel (x0 + w1) y0 (w - w1) h
      let lastL := left.getLast?.getD (0, 0)
      let firstR := right.head?.getD (0, 0)
      if (lastL.1 - firstR.1).natAbs + (lastL.2 - firstR.2).natAbs = 1 then left ++ right
      else left ++ right.reverse
    else
      let h1 := h / 2
      let top := hilbertRec fuel x0 y0 w h1
      let bottom := hilbertRec fuel x0 (y0 + h1) w (h - h1)
      let lastT := top.getLast?.getD (0, 0)
      let firstB := bottom.head?.getD (0, 0)
      if (lastT.1 - firstB.1).natAbs + (lastT.2 - firstB.2).natAbs = 1 then top ++ bottom
      else top ++ bottom.reverse

def buildHilbertLikePath (cols rows : ℕ) : List Cell :=
  let path := hilbertRec (cols + rows + 1) 0 0 cols rows
  if path.length = cols * rows then path else fillMissing path cols rows

/-- `neighbors(x, y, visited)` inside `buildDFSHamiltonian`. -/
def dfsGenNeighbors (cols rows : ℕ) (visited : Finset Cell) (x y : ℤ) : List Cell :=
  dirs.filterMap (fun d =>
    let nx := x + d.1
    let ny := y + d.2
    if nx < 0 ∨ ny < 0 ∨ (cols : ℤ) ≤ nx ∨ (rows : ℤ) ≤ ny then none
    else if (nx, ny) ∈ visited then none
    else some (nx, ny))

mutual
/-- The recursive `dfs(x, y)` of `buildDFSHamiltonian`: mark, extend with
Warnsdorff-ordered shuffled neighbors, backtrack on failure.  The fuel
stands in for the per-attempt wall-clock deadline; fuel 0 is the deadline
bail-out, which returns before marking, exactly like the JS early return. -/
def dfsGenRec (cols rows total : ℕ) (fuel : ℕ) (x y : ℤ) (visited : Finset Cell)
    (path : List Cell) (rng : Rng) : Bool × Finset Cell × List Cell × Rng :=
  match fuel with
  | 0 => (false, visited, path, rng)
  | fuel + 1 =>
    let visited2 := insert (x, y) visited
    let path2 := path ++ [(x, y)]
    if path2.length = total then (true, visited2, path2, rng)
    else
      let pr := shuffleArray (dfsGenNeighbors cols rows visited2 x y) rng
      let neigh := pr.1.mergeSort (fun a b =>
        decide ((dfsGenNeighbors cols rows visited2 a.1 a.2).length ≤
          (dfsGenNeighbors cols rows visited2 b.1 b.2).length))
      let res := dfsGenTry cols rows total fuel neigh visited2 path2 pr.2
      if res.1 then res
      else (false, res.2.1.erase (x, y), res.2.2.1.dropLast, res.2.2.2)
termination_by (fuel, 0)

/-- The `for (const n of neigh) dfs(n.x, n.y)` loop, stopping once found. -/
def dfsGenTry (cols rows total : ℕ) (fuel : ℕ) (neigh : List Cell)
    (visited : Finset Cell) (path : List Cell) (rng : Rng) :
    Bool × Finset Cell × List Cell × Rng :=
  match neigh with
  | [] => (false, visited, path, rng)
  | nb :: rest =>
    let res := dfsGenRec cols rows total fuel nb.1 nb.2 visited path rng
    if res.1 then res
    else dfsGenTry cols rows total fuel rest res.2.1 res.2.2.1 res.2.2.2
termination_by (fuel, neigh.length + 1)
end

/-- The 8-attempt loop of `buildDFSHamiltonian`: random start, one bounded
dfs, accept only a full-length found path. -/
def dfsAttempts (cols rows gf : ℕ) : ℕ → Rng → Option (List Cell) × Rng
  | 0, rng => (none, rng)
  | n + 1, rng =>
    let p1 := Rng.next rng
    let p2 := Rng.next p1.2
    let sx := jsFloorNat (p1.1 * cols)
    let sy := jsFloorNat (p2.1 * rows)
    let res := dfsGenRec cols rows (cols * rows) gf (sx : ℤ) (sy : ℤ) ∅ [] p2.2
    if res.1 ∧ res.2.2.1.length = cols * rows then (some res.2.2.1, res.2.2.2)
    else dfsAttempts cols rows gf n res.2.2.2

def buildDFSHamiltonian (cols rows gf : ℕ) (rng : Rng) : Option (List Cell) × Rng :=
  dfsAttempts cols rows gf 8 rng

/-- The explicit-template dispatch of `buildRandomSnakePath` (`snake` stays
`null` for an unknown template, and for `dfs` when no full path is found). -/
def dispatchTemplate (cols rows : ℕ) (template : String) (gf : ℕ) (rng : Rng) :
    Option (List Cell) × Rng :=
  if template = "dfs" then
    let pr := buildDFSHamiltonian cols rows gf rng
    (match pr.1 with
      | some p => if p.length = cols * rows then some p else none
      | none => none, pr.2)
  else if template = "serpentine" then (some (buildSnakePathBase cols rows), rng)
  else if template = "spiral" then (some (buildSpiralSnakePath cols rows), rng)
  else if template = "column" then (some (buildColumnSnakePath cols rows), rng)
  else if template = "diagonal" then (some (buildDiagonalSnakePath cols rows), rng)
  else if template = "center" then (some (buildCenterSpiralPath cols rows), rng)
  else if template = "rings" then (some (buildRingsPath cols rows), rng)
  else if template = "block" then (some (buildBlockSnakePath cols rows), rng)
  else if template = "tile" then (some (buildTileSnakePath cols rows), rng)
  else if template = "checkerboard" then (some (buildCheckerboardPath cols rows), rng)
  else if template = "spokes" then (some (buildSpokesPath cols rows), rng)
  else if template = "truespokes" then (some (buildTrueSpokesPath cols rows), rng)
  else if template = "perimeter" then (some (buildPerimeterFirstPath cols rows), rng)
  else if template = "diagstripes" then (some (buildDiagonalStripesPath cols rows), rng)
  else if template = "checker2" then (some (buildCheckerboard2x2Path cols rows), rng)
  else if template = "hilbert" then (some (buildHilbertLikePath cols rows), rng)
  else if template = "corner" then (some (buildCornerSpiralPath cols rows), rng)
  else (none, rng)

/-- The weighted `auto` dispatch of `buildRandomSnakePath` on the draw `r`. -/
def autoDispatch (cols rows gf : ℕ) (r : ℚ) (rng : Rng) : Option (List Cell) × Rng :=
  if r < 0.24 then
    let pr := buildDFSHamiltonian cols rows gf rng
    (match pr.1 with
      | some p => if p.length = cols * rows then some p else none
      | none => none, pr.2)
  else if r < 0.42 then (some (buildSnakePathBase cols rows), rng)
  else if r < 0.56 then (some (buildSpiralSnakePath cols rows), rng)
  else if r < 0.70 then (some (buildColumnSnakePath cols rows), rng)
  else if r < 0.78 then (some (buildDiagonalSnakePath cols rows), rng)
  else if r < 0.87 then (some (buildCenterSpiralPath cols rows), rng)
  else if r < 0.90 then (some (buildRingsPath cols rows), rng)
  else if r < 0.93 then (some (buildCheckerboardPath cols rows), rng)
  else if r < 0.95 then (some (buildCheckerboard2x2Path cols rows), rng)
  else if r < 0.96 then (some (buildSpokesPath cols rows), rng)
  else if r < 0.97 then (some (buildTrueSpokesPath cols rows), rng)
  else if r < 0.98 then (some (buildCornerSpiralPath cols rows), rng)
  else if r < 0.985 then (some (buildPerimeterFirstPath cols rows), rng)
  else if r < 0.99 then (some (buildDiagonalStripesPath cols rows), rng)
  else if r < 0.995 then (some (buildHilbertLikePath cols rows), rng)
  else (some (buildBlockSnakePath cols rows), rng)

/-- The random rotation, mirror and reversal transforms applied at the end
of `buildRandomSnakePath` (all four draws are always consumed). -/
def applyTransforms (cols rows : ℕ) (snake : List Cell) (rng : Rng) :
    List Cell × Rng :=
  let p1 := Rng.next rng
  let rot := jsFloorNat (p1.1 * 4)
  let snake := snake.map (fun pt => rotatePoint pt rot cols rows)
  let p2 := Rng.next p1.2
  let snake := if p2.1 < (1 / 2 : ℚ) then snake.map (hMirror cols) else snake
  let p3 := Rng.next p2.2
  let snake := if p3.1 < (1 / 2 : ℚ) then snake.map (vMirror rows) else snake
  let p4 := Rng.next p3.2
  let snake := if p4.1 < (1 / 2 : ℚ) then snake.reverse else snake
  (snake, p4.2)

/-- `buildRandomSnakePath(cols, rows, template)`: explicit template (with
serpentine fallback when the choice produced nothing) or weighted `auto`,
then the random transforms.  `gf` is the dfs deadline fuel. -/
def buildRandomSnakePath (cols rows : ℕ) (template : String) (gf : ℕ) (rng : Rng) :
    List Cell × Rng :=
  if template ≠ "" ∧ template ≠ "auto" then
    let pr := dispatchTemplate cols rows template gf rng
    applyTransforms cols rows (pr.1.getD (buildSnakePathBase cols rows)) pr.2
  else
    let p := Rng.next rng
    let pr := autoDispatch cols rows gf p.1 p.2
    applyTransforms cols rows (pr.1.getD (buildSnakePathBase cols rows)) pr.2

/-- The configuration record passed to `generateLevel` (`label`, `key` and
`targetMs` only feed the UI). -/
structure LevelDef where
  cols : ℕ
  rows : ℕ
  K : ℕ
  minGap : ℕ
  wallPct : ℚ

/-- The game state a successful generation attempt publishes. -/
structure GenLevel where
  cols : ℕ
  rows : ℕ
  anchors : List Anchor
  walls : Finset Wall
  player : Cell
  goal : Cell
  trail : List Cell
  visitedCells : Finset Cell

/-- One attempt of `generateLevel`: random snake, anchor indices, label
shift, anchors (a missing snake index throws: `none` from `assignAnchors`),
shortcut walls, then start/goal lookup (`startA.x` on a missing anchor
throws) and the 400ms quick plus 2000ms confirmation solvability checks,
here with fuels `qf` and `cf`.  `.error ()` is an escaped TypeError,
`.ok none` a failed attempt. -/
def generateLevelAttempt (d : LevelDef) (template : String) (gf qf cf : ℕ)
    (rng : Rng) : Except Unit (Option GenLevel) × Rng :=
  let pr1 := buildRandomSnakePath d.cols d.rows template gf rng
  let pr2 := pickIndicesWithMinGap pr1.1.length d.K d.minGap pr1.2
  let pr3 := Rng.next pr2.2
  let shift := jsFloorNat (pr3.1 * d.K)
  match assignAnchors pr1.1 pr2.1 shift d.K with
  | none => (.error (), pr3.2)
  | some anchors =>
    let pr4 := buildShortcutWallsFromSnake ∅ pr1.1 d.cols d.rows d.wallPct pr3.2
    match anchors.find? (fun a => a.n == 1), anchors.find? (fun a => a.n == d.K) with
    | some startA, some finalA =>
      let player : Cell := (startA.x, startA.y)
      let goal : Cell := (finalA.x, finalA.y)
      if isLayoutSolvable ⟨d.cols, d.rows, anchors, pr4.1⟩ player.1 player.2 goal.1 goal.2 qf then
        if isLayoutSolvable ⟨d.cols, d.rows, anchors, pr4.1⟩ player.1 player.2 goal.1 goal.2 cf then
          (.ok (some ⟨d.cols, d.rows, anchors, pr4.1, player, goal, [player], {player}⟩), pr4.2)
        else (.ok none, pr4.2)
      else (.ok none, pr4.2)
    | _, _ => (.error (), pr4.2)

/-- One attempt of `generateZip6x6`: fixed 6×6 grid, K = 12, minGap = 2, and
no wall building (the attempt clears `walls` and never refills it). -/
def generateZipAttempt (template : String) (gf qf cf : ℕ) (rng : Rng) :
    Except Unit (Option GenLevel) × Rng :=
  let pr1 := buildRandomSnakePath 6 6 template gf rng
  let pr2 := pickIndicesWithMinGap pr1.1.length 12 2 pr1.2
  let pr3 := Rng.next pr2.2
  let shift := jsFloorNat (pr3.1 * (12 : ℕ))
  match assignAnchors pr1.1 pr2.1 shift 12 with
  | none => (.error (), pr3.2)
  | some anchors =>
    match anchors.find? (fun a => a.n == 1), anchors.find? (fun a => a.n == 12) with
    | some startA, some finalA =>
      let player : Cell := (startA.x, startA.y)
      let goal : Cell := (finalA.x, finalA.y)
      if isLayoutSolvable ⟨6, 6, anchors, ∅⟩ player.1 player.2 goal.1 goal.2 qf then
        if isLayoutSolvable ⟨6, 6, anchors, ∅⟩ player.1 player.2 goal.1 goal.2 cf then
          (.ok (some ⟨6, 6, anchors, ∅, player, goal, [player], {player}⟩), pr3.2)
        else (.ok none, pr3.2)
      else (.ok none, pr3.2)
    | _, _ => (.error (), pr3.2)

/-- The `while (attempt < MAX_ATTEMPTS && !solvable)` loop shared by
`generateLevel` and `generateZip6x6`: run attempts until one succeeds,
errors out, or the cap is exhausted; the final `ℕ` is the attempts used. -/
def genLoop (A : Rng → Except Unit (Option GenLevel) × Rng) :
    ℕ → ℕ → Rng → Except Unit (Option GenLevel) × Rng × ℕ
  | 0, attempts, rng => (.ok none, rng, attempts)
  | n + 1, attempts, rng =>
    match A rng with
    | (.error e, rng') => (.error e, rng', attempts + 1)
    | (.ok (some G), rng') => (.ok (some G), rng', attempts + 1)
    | (.ok none, rng') => genLoop A n (attempts + 1) rng'

def generateLevel (d : LevelDef) (template : String) (gf qf cf : ℕ) (rng : Rng) :
    Except Unit (Option GenLevel) × Rng × ℕ :=
  genLoop (generateLevelAttempt d template gf qf cf) 50 0 rng

def generateZip6x6 (template : String) (gf qf cf : ℕ) (rng : Rng) :
    Except Unit (Option GenLevel) × Rng × ℕ :=
  genLoop (generateZipAttempt template gf qf cf) 50 0 rng

/-- A successful `generateLevel` attempt only publishes a layout that passed
both solvability checks. -/
theorem generateLevelAttempt_ok (d : LevelDef) (template : String) (gf qf cf : ℕ)
    (rng : Rng) (G : GenLevel) (r : Rng)
    (h : generateLevelAttempt d template gf qf cf rng = (.ok (some G), r)) :
    isLayoutSolvable ⟨G.cols, G.rows, G.anchors, G.walls⟩ G.player.1 G.player.2
      G.goal.1 G.goal.2 qf = true ∧
    isLayoutSolvable ⟨G.cols, G.rows, G.anchors, G.walls⟩ G.player.1 G.player.2
      G.goal.1 G.goal.2 cf = true := by
  simp only [generateLevelAttempt] at h
  split at h
  · simp at h
  · split at h
    · split at h
      · split at h
        · rename_i hq hc
          have h1 := congrArg Prod.fst h
          simp only at h1
          injection h1 with h1
          injection h1 with h1
          subst h1
          exact ⟨hq, hc⟩
        · simp at h
      · simp at h
    · simp at h

/-- A successful `generateZip6x6` attempt only publishes a layout that
passed both solvability checks. -/
theorem generateZipAttempt_ok (template : String) (gf qf cf : ℕ)
    (rng : Rng) (G : GenLevel) (r : Rng)
    (h : generateZipAttempt template gf qf cf rng = (.ok (some G), r)) :
    isLayoutSolvable ⟨G.cols, G.rows, G.anchors, G.walls⟩ G.player.1 G.player.2
      G.goal.1 G.goal.2 qf = true ∧
    isLayoutSolvable ⟨G.cols, G.rows, G.anchors, G.walls⟩ G.player.1 G.player.2
      G.goal.1 G.goal.2 cf = true := by
  simp only [generateZipAttempt] at h
  split at h
  · simp at h
  · split at h
    · split at h
      · split at h
        · rename_i hq hc
          have h1 := congrArg Prod.fst h
          simp only at h1
          injection h1 with h1
          injection h1 with h1
          subst h1
          exact ⟨hq, hc⟩
        · simp at h
      · simp at h
    · simp at h

/-- The attempt loop uses at most `n` more attempts and either reports an
error, reports exhaustion, or returns a layout the attempt vouched for. -/
theorem genLoop_spec (A : Rng → Except Unit (Option GenLevel) × Rng)
    (P : GenLevel → Prop)
    (hA : ∀ rng G r, A rng = (.ok (some G), r) → P G) :
    ∀ (n attempts : ℕ) (rng : Rng),
      (genLoop A n attempts rng).2.2 ≤ attempts + n ∧
      ((genLoop A n attempts rng).1 = .error () ∨
        (genLoop A n attempts rng).1 = .ok none ∨
        ∃ G, (genLoop A n attempts rng).1 = .ok (some G) ∧ P G) := by
  intro n
  induction n with
  | zero =>
    intro attempts rng
    exact ⟨show attempts ≤ attempts + 0 by omega, Or.inr (Or.inl rfl)⟩
  | succ n ih =>
    intro attempts rng
    rcases hAr : A rng with ⟨res, rng'⟩
    rcases res with e | oG
    · cases e
      have hg : genLoop A (n + 1) attempts rng = (.error (), rng', attempts + 1) := by
        simp only [genLoop, hAr]
      rw [hg]
      exact ⟨show attempts + 1 ≤ attempts + (n + 1) by omega, Or.inl rfl⟩
    · rcases oG with _ | G
      · have hg : genLoop A (n + 1) attempts rng = genLoop A n (attempts + 1) rng' := by
          simp only [genLoop, hAr]
        rw [hg]
        obtain ⟨h1, h2⟩ := ih (attempts + 1) rng'
        exact ⟨by omega, h2⟩
      · have hg : genLoop A (n + 1) attempts rng = (.ok (some G), rng', attempts + 1) := by
          simp only [genLoop, hAr]
        rw [hg]
        exact ⟨show attempts + 1 ≤ attempts + (n + 1) by omega,
          Or.inr (Or.inr ⟨G, rfl, hA rng G rng' hAr⟩)⟩

/-- C7 (Exhaustion behavior): for every configuration, template, rng stream
and fuel budgets, `generateLevel` and `generateZip6x6` perform at most the
fixed cap of 50 attempts, and each request either surfaces an escaped
TypeError, terminates reporting failure without producing a layout
(`.ok none`), or returns a layout that passed both the quick and the
larger-budget confirmation verifier calls (each of which terminates by the
fuel/deadline bound). -/
theorem generation_exhaustion :
    (∀ (d : LevelDef) (template : String) (gf qf cf : ℕ) (rng : Rng),
      (generateLevel d template gf qf cf rng).2.2 ≤ 50 ∧
      ((generateLevel d template gf qf cf rng).1 = .error () ∨
        (generateLevel d template gf qf cf rng).1 = .ok none ∨
        ∃ G, (generateLevel d template gf qf cf rng).1 = .ok (some G) ∧
          isLayoutSolvable ⟨G.cols, G.rows, G.anchors, G.walls⟩ G.player.1 G.player.2
            G.goal.1 G.goal.2 qf = true ∧
          isLayoutSolvable ⟨G.cols, G.rows, G.anchors, G.walls⟩ G.player.1 G.player.2
            G.goal.1 G.goal.2 cf = true)) ∧
    (∀ (template : String) (gf qf cf : ℕ) (rng : Rng),
      (generateZip6x6 template gf qf cf rng).2.2 ≤ 50 ∧
      ((generateZip6x6 template gf qf cf rng).1 = .error () ∨
        (generateZip6x6 template gf qf cf rng).1 = .ok none ∨
        ∃ G, (generateZip6x6 template gf qf cf rng).1 = .ok (some G) ∧
          isLayoutSolvable ⟨G.cols, G.rows, G.anchors, G.walls⟩ G.player.1 G.player.2
            G.goal.1 G.goal.2 qf = true ∧
          isLayoutSolvable ⟨G.cols, G.rows, G.anchors, G.walls⟩ G.player.1 G.player.2
            G.goal.1 G.goal.2 cf = true)) := by
  constructor
  · intro d template gf qf cf rng
    obtain ⟨h1, h2⟩ := genLoop_spec (generateLevelAttempt d template gf qf cf)
      (fun G => isLayoutSolvable ⟨G.cols, G.rows, G.anchors, G.walls⟩ G.player.1 G.player.2
          G.goal.1 G.goal.2 qf = true ∧
        isLayoutSolvable ⟨G.cols, G.rows, G.anchors, G.walls⟩ G.player.1 G.player.2
          G.goal.1 G.goal.2 cf = true)
      (fun rng G r h => generateLevelAttempt_ok d template gf qf cf rng G r h) 50 0 rng
    rw [Nat.zero_add] at h1
    exact ⟨h1, h2⟩
  · intro template gf qf cf rng
    obtain ⟨h1, h2⟩ := genLoop_spec (generateZipAttempt template gf qf cf)
      (fun G => isLayoutSolvable ⟨G.cols, G.rows, G.anchors, G.walls⟩ G.player.1 G.player.2
          G.goal.1 G.goal.2 qf = true ∧
        isLayoutSolvable ⟨G.cols, G.rows, G.anchors, G.walls⟩ G.player.1 G.player.2
          G.goal.1 G.goal.2 cf = true)
      (fun rng G r h => generateZipAttempt_ok template gf qf cf rng G r h) 50 0 rng
    rw [Nat.zero_add] at h1
    exact ⟨h1, h2⟩

/-- A fixed all-zeros random stream. -/
def rngZero : Rng := fun _ => (0 : ℚ)

/-- C6 counterexample: the configuration with `cols = rows = 1` and `K = 0`
violates `K ≥ 1`, yet `generateLevel` performs a full generation attempt
(attempts used = 1, not 0) and what surfaces is a TypeError thrown inside
that attempt (`startA` is undefined), not an immediate pre-attempt
invalid-configuration failure. -/
theorem generation_invalid_config_counterexample :
    (generateLevel ⟨1, 1, 0, 0, 0⟩ "serpentine" 0 0 0 rngZero).1 = .error () ∧
    (generateLevel ⟨1, 1, 0, 0, 0⟩ "serpentine" 0 0 0 rngZero).2.2 = 1 ∧
    (1 : ℕ) ≠ 0 := by
  exact ⟨rfl, rfl, by decide⟩

/-- C6 (amended): no configuration validation exists; for every
configuration with `K = 0` (covering the spec's `K < 1` case), every
template, fuel choice and rng stream, `generateLevel` enters its first
generation attempt, in which the lookup of anchor number 1 fails and the
resulting TypeError escapes — exactly one attempt is made and no layout is
produced. -/
theorem generation_invalid_config (cols rows minGap : ℕ) (wallPct : ℚ)
    (template : String) (gf qf cf : ℕ) (rng : Rng) :
    (generateLevel ⟨cols, rows, 0, minGap, wallPct⟩ template gf qf cf rng).1 = .error () ∧
    (generateLevel ⟨cols, rows, 0, minGap, wallPct⟩ template gf qf cf rng).2.2 = 1 :=
  ⟨rfl, rfl⟩

end Connex
